import Mathlib

/-!
A shallow embedding of the Huffman compressor in `src/huffman.rs` (crate
`rust-huffman`), together with proofs checking the repository's specification
against it.

Modelling conventions:
* Rust `String`s are modelled as `List Char` (the code iterates over
  `char_indices`, i.e. over the characters in order).
* `u64`/`u8`/`usize` values are modelled as `Nat`; wrapping of `u8` shifts is
  made explicit with `% 256`; `usize` subtractions that can underflow (and
  hence panic) are modelled by returning `none`.
* `HashMap` contents are modelled as association lists; `HashMap::insert`
  replaces the value of an existing key in place.  The iteration order of a
  Rust `HashMap` is unspecified; the embedding fixes first-insertion order.
* `Rc<RefCell<HuffmanTree>>` nodes are modelled as an arena: a list of node
  records addressed by index, exactly mirroring the `vec` of nodes that
  `HuffmanTree::build` allocates.  An `Option Nat` stands for an optional
  reference into the arena.
* Fallible operations (`unwrap` on `None`, arithmetic underflow) return
  `Option`.
-/

/-- `Weight::MAX`, the sentinel initial value of `min` in `find_min`. -/
def U64MAX : Nat := 2 ^ 64 - 1

/-- One node of the `HuffmanTree` arena: `value`, `weight`, `parent`,
`left`, `right`, with references modelled as arena indices. -/
structure HuffmanNode where
  value : Option Char
  weight : Nat
  parent : Option Nat
  left : Option Nat
  right : Option Nat
deriving Repr, DecidableEq

/-- `HuffmanTree::new()`: all fields empty / zero. -/
def HuffmanNode.new : HuffmanNode :=
  { value := none, weight := 0, parent := none, left := none, right := none }

instance : Inhabited HuffmanNode := ⟨HuffmanNode.new⟩

/-- `HashMap::get`: first (unique) binding of a key in an association list. -/
def assocGet [DecidableEq κ] : List (κ × α) → κ → Option α
  | [], _ => none
  | (k, v) :: rest, key => if k = key then some v else assocGet rest key

/-- `HashMap::insert`: replace the binding of an existing key in place,
otherwise append the new binding. -/
def insertAssoc [DecidableEq κ] : List (κ × α) → κ → α → List (κ × α)
  | [], k, v => [(k, v)]
  | (k', v') :: rest, k, v =>
    if k' = k then (k, v) :: rest else (k', v') :: insertAssoc rest k v

/-- One character of `CharWeightMap::build`:
`map.entry(c).or_insert(0).add_assign(1)`. -/
def bumpWeight : List (Char × Nat) → Char → List (Char × Nat)
  | [], c => [(c, 1)]
  | (k, v) :: rest, c =>
    if k = c then (k, v + 1) :: rest else (k, v) :: bumpWeight rest c

/-- `CharWeightMap::build`: count the occurrences of every character of the
input (`HashMap` contents in first-occurrence order). -/
def CharWeightMap.build (input : List Char) : List (Char × Nat) :=
  input.foldl bumpWeight []

/-- The scanning loop of `HuffmanTree::find_min` over `(index, node)` pairs:
keep the first parentless node of least weight (strictly below `min`). -/
def findMinGo : List (Nat × HuffmanNode) → Nat → Option Nat → Option Nat
  | [], _, result => result
  | (i, node) :: rest, min, result =>
    if node.parent = none ∧ node.weight < min then
      findMinGo rest node.weight (some i)
    else
      findMinGo rest min result

/-- `HuffmanTree::find_min` on the slice `&vec[..bound]`: index of the first
parentless node of minimal weight (weights of `Weight::MAX` are never
selected because of the strict comparison against the sentinel). -/
def find_min (nodes : List HuffmanNode) (bound : Nat) : Option Nat :=
  findMinGo (nodes.take bound).enum U64MAX none

/-- `m.borrow_mut().parent = Some(vec[index].clone())`: record the parent of a
selected node. -/
def markParent (nodes : List HuffmanNode) (child index : Nat) : List HuffmanNode :=
  nodes.set child { nodes.getD child HuffmanNode.new with parent := some index }

/-- The final writes of one loop iteration of `HuffmanTree::build`: node
`index` receives the summed weight (`w1 + w2` read after both parents are
marked) and the two selected children. -/
def setInternal (nodes2 : List HuffmanNode) (index m1 m2 : Nat) : List HuffmanNode :=
  nodes2.set index
    { nodes2.getD index HuffmanNode.new with
        weight := (nodes2.getD m1 HuffmanNode.new).weight
          + (nodes2.getD m2 HuffmanNode.new).weight,
        left := some m1, right := some m2 }

/-- One iteration of the construction loop of `HuffmanTree::build` at `index`:
select the two parentless minima among `vec[..index]`, mark their parent, and
fill node `index` with their sum and the two children. -/
def HuffmanTree.buildStep (nodes : List HuffmanNode) (index : Nat) :
    Option (List HuffmanNode) := do
  let m1 ← find_min nodes index
  let nodes1 := markParent nodes m1 index
  let m2 ← find_min nodes1 index
  let nodes2 := markParent nodes1 m2 index
  pure (setInternal nodes2 index m1 m2)

/-- The initial arena of `HuffmanTree::build`: `total` fresh nodes, the first
`n` of which receive the characters and weights of the `CharWeightMap`. -/
def HuffmanTree.initNodes (cw : List (Char × Nat)) (total : Nat) : List HuffmanNode :=
  (List.range total).map (fun i =>
    match cw.get? i with
    | some e => { HuffmanNode.new with value := some e.1, weight := e.2 }
    | none => HuffmanNode.new)

/-- `HuffmanTree::build`.  For an empty map the source computes `2 * 0 - 1`,
which underflows `usize` and panics (debug) or makes a absurd allocation
(release); this is modelled as `none`.  The root is the last arena index. -/
def HuffmanTree.build (cw : List (Char × Nat)) : Option (List HuffmanNode) :=
  let n := cw.length
  if n = 0 then none
  else
    let total := 2 * n - 1
    (List.range' n (total - n)).foldlM HuffmanTree.buildStep
      (HuffmanTree.initNodes cw total)

/-- `HuffmanBinaryMap::tree_dfs`, with explicit fuel for termination (children
always have smaller arena indices than their parent, so fuel `i + 1` suffices
for the subtree rooted at index `i`; on exhausted fuel the map is returned
unchanged, which never happens on arenas produced by `HuffmanTree::build`). -/
def treeDfs (nodes : List HuffmanNode) :
    Nat → Option Nat → List Bool → List (Char × List Bool) → List (Char × List Bool)
  | 0, _, _, map => map
  | _ + 1, none, _, map => map
  | fuel + 1, some i, path, map =>
    let node := nodes.getD i HuffmanNode.new
    let map := match node.value with
      | some ch => insertAssoc map ch path
      | none => map
    let map := treeDfs nodes fuel node.left (path ++ [false]) map
    treeDfs nodes fuel node.right (path ++ [true]) map

/-- `HuffmanBinaryMap::build` on an arena produced by `HuffmanTree::build`:
depth-first traversal from the root (the last node), `false` for a left edge
and `true` for a right edge. -/
def HuffmanBinaryMap.build (nodes : List HuffmanNode) : List (Char × List Bool) :=
  treeDfs nodes nodes.length (some (nodes.length - 1)) [] []

/-- Bits rendered as the characters `'0'` / `'1'`. -/
def bitChars (v : List Bool) : List Char :=
  v.map (fun b => if b then '1' else '0')

/-- One line `"{c}:{bits}\n"` of the `Display` instance of
`HuffmanBinaryMap`. -/
def entryLine (e : Char × List Bool) : List Char :=
  e.1 :: ':' :: bitChars e.2 ++ ['\n']

/-- The `Display` instance of `HuffmanBinaryMap`: the concatenation of one
line per binding. -/
def HuffmanBinaryMap.display (bm : List (Char × List Bool)) : List Char :=
  bm.foldl (fun buf e => buf ++ entryLine e) []

/-- Decimal representation of a number, as in `format!("{}", space)`. -/
def decRepr (n : Nat) : List Char := Nat.toDigits 10 n

/-- The configuration text `format!("space:{}\n{}", space, bit_map)` returned
by `HuffmanCodec::encode`. -/
def HuffmanCodec.configText (space : Nat) (bm : List (Char × List Bool)) : List Char :=
  "space:".data ++ decRepr space ++ '\n' :: HuffmanBinaryMap.display bm

/-- The body of the bit-packing loop of `HuffmanCodec::encode` for one bit:
shift the `u8` accumulator, set the bit, and emit a byte once 8 bits have
accumulated.  State: `(result, buf, count)`. -/
def pushBit : (List Nat × Nat × Nat) → Bool → (List Nat × Nat × Nat)
  | (result, buf, count), b =>
    let buf := (buf * 2 + (if b then 1 else 0)) % 256
    let count := count + 1
    if count ≥ 8 then (result ++ [buf], 0, 0) else (result, buf, count)

/-- `HuffmanCodec::encode`, with the padding count and the binary map still
explicit: build the weight map, the tree and the binary map, pack the code of
every input character, then pad the final byte with `space = 8 - count` zero
bits.  `none` models the panics of the source (`build` on an empty input,
`unwrap` on a missing code). -/
def HuffmanCodec.encodeRaw (source : List Char) :
    Option (List Nat × Nat × List (Char × List Bool)) := do
  let weight_map := CharWeightMap.build source
  let nodes ← HuffmanTree.build weight_map
  let bit_map := HuffmanBinaryMap.build nodes
  let st ← source.foldlM (fun st ch => do
      let vec ← assocGet bit_map ch
      pure (vec.foldl pushBit st)) (([] : List Nat), 0, 0)
  let (result, buf, count) := st
  if count ≠ 0 then
    let space := 8 - count
    pure (result ++ [(buf * 2 ^ space) % 256], space, bit_map)
  else
    pure (result, 0, bit_map)

/-- `HuffmanCodec::encode`: the byte payload and the configuration text. -/
def HuffmanCodec.encode (source : List Char) : Option (List Nat × List Char) := do
  let (result, space, bit_map) ← HuffmanCodec.encodeRaw source
  pure (result, HuffmanCodec.configText space bit_map)

/-- `format!("{u8:>0width$b}", ...)` for `width = 8`: the eight bits of a
byte, most significant first, as `'0'`/`'1'` characters. -/
def toBinary8 (n : Nat) : List Char :=
  (List.range 8).map (fun i => if n / 2 ^ (7 - i) % 2 = 1 then '1' else '0')

/-- `DecodeConfig`: the bit-string → character map parsed from the
configuration text, plus the padding count. -/
structure DecodeConfig where
  inner : List (List Char × Char)
  space : Nat
deriving Repr, DecidableEq

/-- `DecodeConfig::get`. -/
def DecodeConfig.get (cfg : DecodeConfig) (k : List Char) : Option Char :=
  assocGet cfg.inner k

/-- Split a character list at every occurrence of `sep`, as Rust's
`str::split` with a one-character pattern (`n` separators yield `n + 1`
segments, so a trailing separator yields a trailing empty segment). -/
def splitOnSep (sep : Char) (s : List Char) : List (List Char) :=
  s.foldr (fun c acc =>
    if c = sep then [] :: acc
    else
      match acc with
      | [] => [[c]]
      | a :: as => (c :: a) :: as) [[]]

/-- `u8::from_str_radix(s, 10)`: an optional leading `'+'`, then at least one
decimal digit, with the value required to fit in a `u8`. -/
def parseU8 (s : List Char) : Option Nat :=
  let ds := match s with
    | '+' :: rest => rest
    | _ => s
  if ds = [] then none
  else if ds.all (fun c => c.isDigit) then
    let v := ds.foldl (fun acc c => acc * 10 + (c.toNat - '0'.toNat)) 0
    if v < 256 then some v else none
  else none

/-- Processing of one segment of the configuration text by
`DecodeConfig::build`: skip it unless it contains exactly one colon; an empty
key stands for the newline character; a `"space"` key additionally records the
padding count (the source still inserts `(bits, 's')` into the map in that
case); `none` models the `unwrap` panic on an unparsable padding count. -/
def DecodeConfig.buildLine (cfg : DecodeConfig) (s : List Char) : Option DecodeConfig :=
  let pair := splitOnSep ':' s
  if pair.length = 2 then
    let ch := pair.getD 0 []
    let bit := pair.getD 1 []
    if ch = [] then
      some { inner := insertAssoc cfg.inner bit '\n', space := cfg.space }
    else if ch = "space".data then
      match parseU8 bit with
      | some sp => some { inner := insertAssoc cfg.inner bit 's', space := sp }
      | none => none
    else
      match ch with
      | c :: _ => some { inner := insertAssoc cfg.inner bit c, space := cfg.space }
      | [] => none
  else
    some cfg

/-- `DecodeConfig::build`: split the configuration text on newlines and
process every segment in order. -/
def DecodeConfig.build (source : List Char) : Option DecodeConfig :=
  (splitOnSep '\n' source).foldlM DecodeConfig.buildLine { inner := [], space := 0 }

/-- The greedy matching step of `HuffmanCodec::decode` for one bit character:
extend the candidate, and on a codebook match emit the character and reset the
candidate.  State: `(result, tmp_str)`. -/
def decodeStep (cfg : DecodeConfig) : (List Char × List Char) → Char → (List Char × List Char)
  | (result, tmp), ch =>
    let tmp := tmp ++ [ch]
    match DecodeConfig.get cfg tmp with
    | some mch => (result ++ [mch], [])
    | none => (result, tmp)

/-- `HuffmanCodec::decode`: expand the bytes to a bit string, drop the final
`space` bits (the `usize` subtraction `bit_str.len() - space` underflows and
panics when `space` exceeds the bit count, modelled as `none`), then greedily
match prefixes against the codebook.  Unmatched trailing bits are silently
discarded. -/
def HuffmanCodec.decode (source : List Nat) (cfg : DecodeConfig) : Option (List Char) :=
  let bit_str := (source.map toBinary8).flatten
  if bit_str.length < cfg.space then
    none
  else
    let last_idx := bit_str.length - cfg.space
    some (((bit_str.take last_idx).foldl (decodeStep cfg) ([], [])).1)

/-- The complete pipeline `decode(encode(text))` using the configuration text
that `encode` returns, as in `main.rs` (`hfm_compress` then
`hfm_decompress`). -/
def roundTrip (source : List Char) : Option (List Char) := do
  let (bytes, cfgText) ← HuffmanCodec.encode source
  let cfg ← DecodeConfig.build cfgText
  HuffmanCodec.decode bytes cfg

/-- The concatenation of the codes of the input characters, in order. -/
def codeBits (bm : List (Char × List Bool)) (source : List Char) : Option (List Bool) :=
  (source.mapM (assocGet bm)).map List.flatten

/-- Total encoded bit length `Σ freq(s) × len(code(s))` of a code assignment
for a frequency table. -/
def codeCost (cw : List (Char × Nat)) (f : Char → List Bool) : Nat :=
  (cw.map (fun e => e.2 * (f e.1).length)).sum

/-- A code assignment is free of prefixes among the given symbols: the code of
one symbol is never a prefix of the code of a different symbol. -/
def PFOn (keys : List Char) (f : Char → List Bool) : Prop :=
  ∀ c₁ ∈ keys, ∀ c₂ ∈ keys, c₁ ≠ c₂ → ¬ (f c₁ <+: f c₂)

/-! ### Basic facts about the bit expansion used by `decode` -/

theorem toBinary8_length (n : Nat) : (toBinary8 n).length = 8 := by
  simp [toBinary8]

theorem bitStr_length (source : List Nat) :
    ((source.map toBinary8).flatten).length = 8 * source.length := by
  induction source with
  | nil => simp
  | cons b rest ih =>
    simp [ih, toBinary8_length]
    ring

/-! ### Claim theorems: concrete behaviour -/

/-- C10: `HuffmanCodec::decode` is total exactly under the precondition
`8 × len(source) ≥ space`; the unchecked subtraction
`bit_str.len() - space` underflows (and the source panics) in every other
case, and no other operation of `decode` can fail. -/
theorem c10_decode_total_iff (source : List Nat) (cfg : DecodeConfig) :
    (HuffmanCodec.decode source cfg).isSome ↔ cfg.space ≤ 8 * source.length := by
  simp only [HuffmanCodec.decode, bitStr_length]
  split <;> simp <;> omega

/-- C1: the round-trip law fails on the code.  For the single-symbol input
`"a"` the whole input is lost, and for the four-symbol input `"abcd"`
(whose padding count is 0, so that `DecodeConfig::build` maps the bit string
`"0"` to `'s'` via the `"space:0"` line) decoding returns `"sssdsd"`. -/
theorem c1_roundTrip_fails :
    roundTrip "a".data = some [] ∧
    roundTrip "abcd".data = some "sssdsd".data ∧
    "sssdsd".data ≠ "abcd".data ∧ ("a".data : List Char) ≠ [] := by
  refine ⟨by decide, by decide, by decide, by decide⟩

/-- C4: empty-input behaviour is not defined: the frequency table is indeed
empty, but `HuffmanTree::build` computes `2 * 0 - 1`, which underflows
`usize`, so `encode` crashes instead of producing an empty payload. -/
theorem c4_empty_input_crashes :
    CharWeightMap.build ([] : List Char) = [] ∧
    HuffmanCodec.encode ([] : List Char) = none := by
  exact ⟨rfl, rfl⟩

/-- C5: a single-symbol input does produce a single-leaf tree with the empty
(degenerate) codeword, but the round trip then loses the input: encoding
`"aaa"` yields an empty payload and decoding it yields `""`, not `"aaa"`. -/
theorem c5_single_symbol_roundtrip_fails :
    (HuffmanTree.build (CharWeightMap.build "aaa".data)).map HuffmanBinaryMap.build
      = some [('a', [])] ∧
    roundTrip "aaa".data = some [] ∧ ([] : List Char) ≠ "aaa".data := by
  refine ⟨by decide, by decide, by decide⟩

/-- C7: `decode` never signals a decoding-corruption error.  Against the
codebook `{"00" ↦ 'a'}` (padding 0), the payload byte `0b00111111` decodes to
`"a"` with the six unmatched trailing bits silently dropped, and the payload
byte `0b11111111`, which never matches at all, decodes to `""`. -/
theorem c7_decode_never_errors :
    HuffmanCodec.decode [63] { inner := [([ '0', '0'], 'a')], space := 0 } = some ['a'] ∧
    HuffmanCodec.decode [255] { inner := [([ '0', '0'], 'a')], space := 0 } = some [] := by
  exact ⟨rfl, rfl⟩

/-- C8: deserialising the serialised codebook is not behaviourally equivalent
to the inverse of the code table.  For input `"abcd"` the code table assigns
`00, 01, 10, 11` (no symbol has code `"0"`), yet the parsed configuration maps
the bit string `"0"` to `'s'`, because `DecodeConfig::build` also inserts the
`"space:0"` line into the symbol map. -/
theorem c8_deserialize_not_inverse :
    HuffmanCodec.encodeRaw "abcd".data = some ([27], 0,
      [('a', [false, false]), ('b', [false, true]),
       ('c', [true, false]), ('d', [true, true])]) ∧
    ((HuffmanCodec.encode "abcd".data).bind fun p => DecodeConfig.build p.2).map
      (fun cfg => DecodeConfig.get cfg ['0']) = some (some 's') ∧
    (∀ e ∈ [('a', [false, false]), ('b', [false, true]),
       ('c', [true, false]), ('d', [true, true])], e.2 ≠ [false]) := by
  refine ⟨by decide, by decide, by decide⟩

/-! ### The padding invariant (C6) -/

/-- Invariant of the bit-packing state `(result, buf, count)` after `k` bits
have been processed. -/
def PackInv (st : List Nat × Nat × Nat) (k : Nat) : Prop :=
  st.2.2 < 8 ∧ 8 * st.1.length + st.2.2 = k

theorem pushBit_inv {st : List Nat × Nat × Nat} {k : Nat} (h : PackInv st k) (b : Bool) :
    PackInv (pushBit st b) (k + 1) := by
  obtain ⟨r, buf, cnt⟩ := st
  obtain ⟨h8, hk⟩ := h
  simp only [PackInv, pushBit] at *
  split
  · simp
    omega
  · simp
    omega

theorem foldl_pushBit_inv {st : List Nat × Nat × Nat} {k : Nat} (v : List Bool)
    (h : PackInv st k) : PackInv (v.foldl pushBit st) (k + v.length) := by
  induction v generalizing st k with
  | nil => simpa using h
  | cons b rest ih =>
    have := ih (pushBit_inv h b)
    simpa [Nat.add_assoc, Nat.add_comm 1 rest.length] using this

theorem encode_loop_inv (bm : List (Char × List Bool)) :
    ∀ (source : List Char) (st₀ stF : List Nat × Nat × Nat),
    source.foldlM (fun st ch => do
        let vec ← assocGet bm ch
        pure (vec.foldl pushBit st)) st₀ = some stF →
    ∃ bits, codeBits bm source = some bits ∧
      ∀ k, PackInv st₀ k → PackInv stF (k + bits.length) := by
  intro source
  induction source with
  | nil =>
    intro st₀ stF h
    simp only [List.foldlM_nil, Option.pure_def, Option.some.injEq] at h
    subst h
    exact ⟨[], rfl, fun k hk => by simpa using hk⟩
  | cons ch rest ih =>
    intro st₀ stF h
    simp only [List.foldlM_cons, Option.bind_eq_bind, Option.pure_def,
      Option.bind_eq_some, Option.some.injEq] at h
    obtain ⟨st₁, ⟨vec, hvec, hst₁⟩, hrest⟩ := h
    obtain ⟨bits, hbits, hinv⟩ := ih st₁ stF hrest
    simp only [codeBits, List.mapM_cons, Option.map_eq_some'] at hbits ⊢
    obtain ⟨codes, hcodes, hflat⟩ := hbits
    refine ⟨vec ++ bits, ⟨vec :: codes, ?_, by simp [hflat]⟩, ?_⟩
    · rw [hvec, hcodes]
      rfl
    · intro k hk
      have h1 := foldl_pushBit_inv vec hk
      rw [hst₁] at h1
      have := hinv _ h1
      simpa [Nat.add_assoc] using this

/-- C6: for every input accepted by `encode`, the padding count is in `[0,7]`
and `8 × byteCount(payload) − paddingCount` equals the total bit length of the
concatenated codes of the input characters, in order. -/
theorem c6_padding_invariant (source : List Char) (bytes : List Nat) (space : Nat)
    (bm : List (Char × List Bool))
    (h : HuffmanCodec.encodeRaw source = some (bytes, space, bm)) :
    ∃ bits, codeBits bm source = some bits ∧
      space ≤ 7 ∧ 8 * bytes.length = bits.length + space := by
  unfold HuffmanCodec.encodeRaw at h
  simp only [Option.bind_eq_bind, Option.pure_def, Option.bind_eq_some] at h
  obtain ⟨nodes, hnodes, h⟩ := h
  obtain ⟨st, hloop, hfin⟩ := h
  obtain ⟨result, buf, count⟩ := st
  obtain ⟨bits, hbits, hinv⟩ := encode_loop_inv (HuffmanBinaryMap.build nodes) source _ _ hloop
  have h0 : PackInv ([], 0, 0) 0 := by constructor <;> simp
  have hF := hinv 0 h0
  obtain ⟨h8, hlen⟩ := hF
  simp only at h8 hlen
  by_cases hc : count = 0
  · subst hc
    simp only [ne_eq, not_true_eq_false, reduceIte, Option.some.injEq, Prod.mk.injEq] at hfin
    obtain ⟨hb, hs, hbm⟩ := hfin
    subst hb; subst hs; subst hbm
    exact ⟨bits, hbits, by omega, by omega⟩
  · simp only [ne_eq, hc, not_false_eq_true, reduceIte, Option.some.injEq,
      Prod.mk.injEq] at hfin
    obtain ⟨hb, hs, hbm⟩ := hfin
    subst hb; subst hs; subst hbm
    refine ⟨bits, hbits, by omega, by simp; omega⟩

/-- Witness for C6 at the concrete input `"aaab"`. -/
theorem c6_padding_invariant_witness :
    ∃ bits, codeBits [('b', [false]), ('a', [true])] "aaab".data = some bits ∧
      4 ≤ 7 ∧ 8 * [(224 : Nat)].length = bits.length + 4 :=
  c6_padding_invariant "aaab".data [224] 4 [('b', [false]), ('a', [true])] (by decide)

/-! ### Structure of the arena built by `HuffmanTree::build` -/

/-- The node stored at an arena index (out-of-range indices read as fresh
nodes, which never happens on the indices actually dereferenced by the
source). -/
def nodeAt (nodes : List HuffmanNode) (i : Nat) : HuffmanNode :=
  nodes.getD i HuffmanNode.new

/-- The `(character, path)` pairs visited by `tree_dfs` below a given root, in
visiting order, before the `HashMap` inserts are applied. -/
def subtreeEntries (nodes : List HuffmanNode) :
    Nat → Option Nat → List Bool → List (Char × List Bool)
  | 0, _, _ => []
  | _ + 1, none, _ => []
  | fuel + 1, some i, path =>
    (match (nodeAt nodes i).value with | some ch => [(ch, path)] | none => [])
      ++ subtreeEntries nodes fuel (nodeAt nodes i).left (path ++ [false])
      ++ subtreeEntries nodes fuel (nodeAt nodes i).right (path ++ [true])

theorem subtreeEntries_none (nodes : List HuffmanNode) (fuel : Nat) (path : List Bool) :
    subtreeEntries nodes fuel none path = [] := by
  cases fuel <;> rfl

/-- `tree_dfs` is the fold of `HashMap::insert` over the visited entries. -/
theorem treeDfs_eq_foldl (nodes : List HuffmanNode) :
    ∀ (fuel : Nat) (oi : Option Nat) (path : List Bool) (acc : List (Char × List Bool)),
    treeDfs nodes fuel oi path acc =
      (subtreeEntries nodes fuel oi path).foldl (fun m e => insertAssoc m e.1 e.2) acc := by
  intro fuel
  induction fuel with
  | zero => intro oi path acc; rfl
  | succ fuel ih =>
    intro oi path acc
    cases oi with
    | none => rfl
    | some i =>
      simp only [treeDfs, subtreeEntries, nodeAt]
      cases hv : (nodes.getD i HuffmanNode.new).value with
      | none =>
        simp only [hv, List.foldl_append, List.nil_append, List.foldl_nil, ih]
      | some ch =>
        simp only [hv, List.foldl_append, List.singleton_append, List.foldl_cons, ih]

theorem mem_insertAssoc [DecidableEq κ] {m : List (κ × α)} {k : κ} {v : α} :
    ∀ e ∈ insertAssoc m k v, e = (k, v) ∨ e ∈ m := by
  induction m with
  | nil => intro e he; simp [insertAssoc] at he; simp [he]
  | cons p rest ih =>
    intro e he
    rw [insertAssoc] at he
    by_cases hk : p.1 = k
    · simp only [hk, if_pos rfl] at he
      rcases List.mem_cons.mp he with h | h
      · exact Or.inl h
      · exact Or.inr (List.mem_cons_of_mem _ h)
    · simp only [if_neg hk] at he
      rcases List.mem_cons.mp he with h | h
      · exact Or.inr (h ▸ List.mem_cons_self _ _)
      · rcases ih e h with h' | h'
        · exact Or.inl h'
        · exact Or.inr (List.mem_cons_of_mem _ h')

theorem mem_foldl_insert [DecidableEq κ] :
    ∀ (L : List (κ × α)) (m₀ : List (κ × α)) (e : κ × α),
    e ∈ L.foldl (fun m e => insertAssoc m e.1 e.2) m₀ → e ∈ m₀ ∨ e ∈ L := by
  intro L
  induction L with
  | nil => intro m₀ e he; exact Or.inl he
  | cons p rest ih =>
    intro m₀ e he
    rcases ih _ e he with h | h
    · rcases mem_insertAssoc e h with h' | h'
      · exact Or.inr (h' ▸ List.mem_cons_self _ _)
      · exact Or.inl h'
    · exact Or.inr (List.mem_cons_of_mem _ h)

theorem assocGet_mem [DecidableEq κ] {m : List (κ × α)} {k : κ} {v : α}
    (h : assocGet m k = some v) : (k, v) ∈ m := by
  induction m with
  | nil => simp [assocGet] at h
  | cons p rest ih =>
    obtain ⟨k', v'⟩ := p
    rw [assocGet] at h
    by_cases hk : k' = k
    · subst hk
      rw [if_pos rfl] at h
      injection h with h'
      subst h'
      exact List.mem_cons_self _ _
    · rw [if_neg hk] at h
      exact List.mem_cons_of_mem _ (ih h)

/-- The structural facts about a built arena that make the traversal
produce a prefix-free code: a node carrying a character has no children, and
children always have a smaller index than their parent. -/
def GoodArena (nodes : List HuffmanNode) : Prop :=
  ∀ i : Nat,
    ((nodeAt nodes i).value.isSome →
      (nodeAt nodes i).left = none ∧ (nodeAt nodes i).right = none) ∧
    (∀ j, (nodeAt nodes i).left = some j → j < i) ∧
    (∀ j, (nodeAt nodes i).right = some j → j < i)

theorem subtreeEntries_path_isPre (nodes : List HuffmanNode) :
    ∀ (fuel : Nat) (oi : Option Nat) (path : List Bool),
    ∀ e ∈ subtreeEntries nodes fuel oi path, path <+: e.2 := by
  intro fuel
  induction fuel with
  | zero => intro oi path e he; simp [subtreeEntries] at he
  | succ fuel ih =>
    intro oi path e he
    cases oi with
    | none => simp [subtreeEntries] at he
    | some i =>
      rw [subtreeEntries] at he
      rcases List.mem_append.mp he with he' | hR
      · rcases List.mem_append.mp he' with hH | hL
        · cases hv : (nodeAt nodes i).value with
          | none => simp [hv] at hH
          | some ch =>
            simp [hv] at hH
            simp [hH]
        · exact (List.prefix_append path [false]).trans (ih _ _ e hL)
      · exact (List.prefix_append path [true]).trans (ih _ _ e hR)

theorem prefix_fork {path p₁ p₂ : List Bool}
    (h₁ : path ++ [false] <+: p₁) (h₂ : path ++ [true] <+: p₂) :
    ¬ (p₁ <+: p₂) ∧ ¬ (p₂ <+: p₁) := by
  obtain ⟨t₁, rfl⟩ := h₁
  obtain ⟨t₂, rfl⟩ := h₂
  rw [List.append_assoc, List.append_assoc]
  constructor
  · intro h
    have := (List.prefix_append_right_inj path).mp h
    simp at this
  · intro h
    have := (List.prefix_append_right_inj path).mp h
    simp at this

theorem subtreeEntries_pairwise (nodes : List HuffmanNode) (hG : GoodArena nodes) :
    ∀ (fuel : Nat) (oi : Option Nat) (path : List Bool),
    (subtreeEntries nodes fuel oi path).Pairwise
      (fun e₁ e₂ => ¬ (e₁.2 <+: e₂.2) ∧ ¬ (e₂.2 <+: e₁.2)) := by
  intro fuel
  induction fuel with
  | zero => intro oi path; simp [subtreeEntries]
  | succ fuel ih =>
    intro oi path
    cases oi with
    | none => simp [subtreeEntries]
    | some i =>
      rw [subtreeEntries]
      cases hv : (nodeAt nodes i).value with
      | some ch =>
        have hc := (hG i).1 (by simp [hv])
        simp only [hv, hc.1, hc.2, subtreeEntries_none]
        simp
      | none =>
        simp only [hv, List.nil_append]
        rw [List.pairwise_append]
        refine ⟨ih _ _, ih _ _, ?_⟩
        intro e₁ h₁ e₂ h₂
        exact prefix_fork
          (subtreeEntries_path_isPre nodes fuel _ _ e₁ h₁)
          (subtreeEntries_path_isPre nodes fuel _ _ e₂ h₂)

theorem nodeAt_set_self {nodes : List HuffmanNode} {i : Nat} {nd : HuffmanNode}
    (h : i < nodes.length) : nodeAt (nodes.set i nd) i = nd := by
  simp [nodeAt, List.getD, List.getElem?_set_self', h]

theorem nodeAt_set_other {nodes : List HuffmanNode} {i j : Nat} {nd : HuffmanNode}
    (h : i ≠ j) : nodeAt (nodes.set i nd) j = nodeAt nodes j := by
  simp [nodeAt, List.getD, List.getElem?_set_ne, h]

theorem findMinGo_some :
    ∀ (l : List (Nat × HuffmanNode)) (min : Nat) (res : Option Nat) (j : Nat),
    findMinGo l min res = some j →
    res = some j ∨ ∃ nd, (j, nd) ∈ l ∧ nd.parent = none := by
  intro l
  induction l with
  | nil => intro min res j h; exact Or.inl h
  | cons p rest ih =>
    intro min res j h
    obtain ⟨i, node⟩ := p
    rw [findMinGo] at h
    by_cases hc : node.parent = none ∧ node.weight < min
    · rw [if_pos hc] at h
      rcases ih _ _ _ h with h' | ⟨nd, hmem, hp⟩
      · injection h' with h''
        subst h''
        exact Or.inr ⟨node, List.mem_cons_self _ _, hc.1⟩
      · exact Or.inr ⟨nd, List.mem_cons_of_mem _ hmem, hp⟩
    · rw [if_neg hc] at h
      rcases ih _ _ _ h with h' | ⟨nd, hmem, hp⟩
      · exact Or.inl h'
      · exact Or.inr ⟨nd, List.mem_cons_of_mem _ hmem, hp⟩

theorem find_min_spec {nodes : List HuffmanNode} {bound j : Nat}
    (h : find_min nodes bound = some j) :
    j < bound ∧ j < nodes.length ∧ (nodeAt nodes j).parent = none := by
  rcases findMinGo_some _ _ _ _ h with h' | ⟨nd, hmem, hp⟩
  · exact absurd h' (by simp)
  · rw [List.mk_mem_enum_iff_getElem?] at hmem
    have hjb : j < (nodes.take bound).length := by
      by_contra hge
      rw [List.getElem?_eq_none (by omega)] at hmem
      exact absurd hmem (by simp)
    rw [List.length_take] at hjb
    have hj1 : j < bound := lt_of_lt_of_le hjb (min_le_left _ _)
    have hj2 : j < nodes.length := lt_of_lt_of_le hjb (min_le_right _ _)
    rw [List.getElem?_take, if_pos hj1] at hmem
    refine ⟨hj1, hj2, ?_⟩
    have : nodeAt nodes j = nd := by
      simp [nodeAt, List.getD, hmem]
    rw [this]
    exact hp


theorem nodeAt_set (nodes : List HuffmanNode) (i : Nat) (nd : HuffmanNode) (x : Nat)
    (h : i < nodes.length) :
    nodeAt (nodes.set i nd) x = if x = i then nd else nodeAt nodes x := by
  by_cases hx : x = i
  · subst hx
    rw [if_pos rfl]
    exact nodeAt_set_self h
  · rw [if_neg hx]
    exact nodeAt_set_other (Ne.symm hx)

theorem length_markParent (nodes : List HuffmanNode) (c i : Nat) :
    (markParent nodes c i).length = nodes.length := by
  simp [markParent]

theorem nodeAt_markParent (nodes : List HuffmanNode) (c i x : Nat)
    (h : c < nodes.length) :
    nodeAt (markParent nodes c i) x =
      if x = c then { nodeAt nodes c with parent := some i } else nodeAt nodes x :=
  nodeAt_set nodes c _ x h

theorem length_setInternal (nodes2 : List HuffmanNode) (i m1 m2 : Nat) :
    (setInternal nodes2 i m1 m2).length = nodes2.length := by
  simp [setInternal]

theorem nodeAt_setInternal (nodes2 : List HuffmanNode) (i m1 m2 x : Nat)
    (h : i < nodes2.length) :
    nodeAt (setInternal nodes2 i m1 m2) x =
      if x = i then
        { nodeAt nodes2 i with
            weight := (nodeAt nodes2 m1).weight + (nodeAt nodes2 m2).weight,
            left := some m1, right := some m2 }
      else nodeAt nodes2 x :=
  nodeAt_set nodes2 i _ x h

/-- Field-level description of one successful `buildStep`: the two selected
indices are distinct parentless former minima below `index`, node `index`
becomes the internal node over them, their parents are recorded, and every
other node is untouched. -/
theorem buildStep_nodeAt {nodes : List HuffmanNode} {k : Nat} {nodes' : List HuffmanNode}
    (hklen : k < nodes.length)
    (h : HuffmanTree.buildStep nodes k = some nodes') :
    ∃ m1 m2, m1 < k ∧ m2 < k ∧ m1 ≠ m2 ∧
      (nodeAt nodes m1).parent = none ∧
      (nodeAt nodes m2).parent = none ∧
      find_min nodes k = some m1 ∧
      find_min (markParent nodes m1 k) k = some m2 ∧
      nodes'.length = nodes.length ∧
      nodeAt nodes' k = { nodeAt nodes k with
        weight := (nodeAt nodes m1).weight + (nodeAt nodes m2).weight,
        left := some m1, right := some m2 } ∧
      nodeAt nodes' m1 = { nodeAt nodes m1 with parent := some k } ∧
      nodeAt nodes' m2 = { nodeAt nodes m2 with parent := some k } ∧
      (∀ x, x ≠ k → x ≠ m1 → x ≠ m2 → nodeAt nodes' x = nodeAt nodes x) := by
  unfold HuffmanTree.buildStep at h
  simp only [Option.bind_eq_bind, Option.pure_def, Option.bind_eq_some,
    Option.some.injEq] at h
  obtain ⟨m1, hf1, m2, hf2, h3⟩ := h
  obtain ⟨hm1k, hm1len, hm1p⟩ := find_min_spec hf1
  obtain ⟨hm2k, hm2len', hm2p'⟩ := find_min_spec hf2
  have hm2len : m2 < nodes.length := by
    rw [length_markParent] at hm2len'
    exact hm2len'
  have hMP : ∀ x, nodeAt (markParent nodes m1 k) x =
      if x = m1 then { nodeAt nodes m1 with parent := some k } else nodeAt nodes x :=
    fun x => nodeAt_markParent nodes m1 k x hm1len
  have hne21 : m2 ≠ m1 := by
    intro hEq
    rw [hMP m2, if_pos hEq] at hm2p'
    simp at hm2p'
  have hm2p : (nodeAt nodes m2).parent = none := by
    rw [hMP m2, if_neg hne21] at hm2p'
    exact hm2p'
  have hMPm2 : nodeAt (markParent nodes m1 k) m2 = nodeAt nodes m2 := by
    rw [hMP m2, if_neg hne21]
  -- the doubly marked arena
  have hMM : ∀ x, nodeAt (markParent (markParent nodes m1 k) m2 k) x =
      if x = m2 then { nodeAt nodes m2 with parent := some k }
      else if x = m1 then { nodeAt nodes m1 with parent := some k }
      else nodeAt nodes x := by
    intro x
    rw [nodeAt_markParent _ m2 k x (by rw [length_markParent]; exact hm2len), hMPm2, hMP x]
  have hMMlen : (markParent (markParent nodes m1 k) m2 k).length = nodes.length := by
    rw [length_markParent, length_markParent]
  have hm1nk : m1 ≠ k := Nat.ne_of_lt hm1k
  have hm2nk : m2 ≠ k := Nat.ne_of_lt hm2k
  have hMMk : nodeAt (markParent (markParent nodes m1 k) m2 k) k = nodeAt nodes k := by
    rw [hMM k, if_neg (Ne.symm hm2nk), if_neg (Ne.symm hm1nk)]
  have hMMm1 : nodeAt (markParent (markParent nodes m1 k) m2 k) m1
      = { nodeAt nodes m1 with parent := some k } := by
    rw [hMM m1, if_neg (fun hEq => hne21 hEq.symm), if_pos rfl]
  have hMMm2 : nodeAt (markParent (markParent nodes m1 k) m2 k) m2
      = { nodeAt nodes m2 with parent := some k } := by
    rw [hMM m2, if_pos rfl]
  have hFin : ∀ x, nodeAt nodes' x =
      if x = k then
        { nodeAt nodes k with
            weight := (nodeAt nodes m1).weight + (nodeAt nodes m2).weight,
            left := some m1, right := some m2 }
      else if x = m2 then { nodeAt nodes m2 with parent := some k }
      else if x = m1 then { nodeAt nodes m1 with parent := some k }
      else nodeAt nodes x := by
    intro x
    rw [← h3]
    rw [nodeAt_setInternal _ k m1 m2 x (by rw [hMMlen]; exact hklen)]
    rw [hMMk, hMMm1, hMMm2, hMM x]
  refine ⟨m1, m2, hm1k, hm2k, fun hEq => hne21 hEq.symm, hm1p, hm2p, hf1, hf2, ?_, ?_, ?_, ?_, ?_⟩
  · rw [← h3, length_setInternal, hMMlen]
  · rw [hFin k, if_pos rfl]
  · rw [hFin m1, if_neg hm1nk, if_neg (fun hEq => hne21 hEq.symm), if_pos rfl]
  · rw [hFin m2, if_neg hm2nk, if_pos rfl]
  · intro x hxk hxm1 hxm2
    rw [hFin x, if_neg hxk, if_neg hxm2, if_neg hxm1]

/-- The loop invariant of `HuffmanTree::build` after the iterations up to
(excluding) index `k` have run: leaves keep their character and weight and
never acquire children; every processed internal node has two children of
smaller index and carries the sum of their weights; unprocessed nodes are
fresh; and a recorded parent is always a processed internal node pointing back
at its child. -/
structure BuildInv (cw : List (Char × Nat)) (k : Nat) (nodes : List HuffmanNode) : Prop where
  len : nodes.length = 2 * cw.length - 1
  leaf : ∀ i, i < cw.length → ∃ e, cw.get? i = some e ∧
      (nodeAt nodes i).value = some e.1 ∧ (nodeAt nodes i).weight = e.2 ∧
      (nodeAt nodes i).left = none ∧ (nodeAt nodes i).right = none
  internal : ∀ i, cw.length ≤ i → i < k →
      (nodeAt nodes i).value = none ∧
      ∃ l r, (nodeAt nodes i).left = some l ∧ (nodeAt nodes i).right = some r ∧
        l < i ∧ r < i ∧
        (nodeAt nodes i).weight = (nodeAt nodes l).weight + (nodeAt nodes r).weight
  fresh : ∀ i, k ≤ i →
      (nodeAt nodes i).value = none ∧ (nodeAt nodes i).left = none ∧
      (nodeAt nodes i).right = none ∧ (nodeAt nodes i).parent = none ∧
      (nodeAt nodes i).weight = 0
  par : ∀ j p, (nodeAt nodes j).parent = some p →
      cw.length ≤ p ∧ p < k ∧
      ((nodeAt nodes p).left = some j ∨ (nodeAt nodes p).right = some j)

theorem buildStep_inv {cw : List (Char × Nat)} {k : Nat} {nodes nodes' : List HuffmanNode}
    (hk1 : cw.length ≤ k) (hk2 : k < 2 * cw.length - 1)
    (hI : BuildInv cw k nodes)
    (h : HuffmanTree.buildStep nodes k = some nodes') :
    BuildInv cw (k + 1) nodes' := by
  have hklen : k < nodes.length := by rw [hI.len]; exact hk2
  obtain ⟨m1, m2, hm1k, hm2k, hne12, hm1p, hm2p, hf1, hf2, hlen, hNk, hNm1, hNm2, hNx⟩ :=
    buildStep_nodeAt hklen h
  have hm1nk : m1 ≠ k := Nat.ne_of_lt hm1k
  have hm2nk : m2 ≠ k := Nat.ne_of_lt hm2k
  have hsame : ∀ x, x ≠ k →
      (nodeAt nodes' x).value = (nodeAt nodes x).value ∧
      (nodeAt nodes' x).left = (nodeAt nodes x).left ∧
      (nodeAt nodes' x).right = (nodeAt nodes x).right ∧
      (nodeAt nodes' x).weight = (nodeAt nodes x).weight := by
    intro x hx
    by_cases h2 : x = m1
    · subst h2
      rw [hNm1]
      exact ⟨rfl, rfl, rfl, rfl⟩
    · by_cases h3 : x = m2
      · subst h3
        rw [hNm2]
        exact ⟨rfl, rfl, rfl, rfl⟩
      · rw [hNx x hx h2 h3]
        exact ⟨rfl, rfl, rfl, rfl⟩
  have hkfields := hI.fresh k (le_refl k)
  refine ⟨?_, ?_, ?_, ?_, ?_⟩
  · rw [hlen, hI.len]
  · intro i hi
    obtain ⟨e, he, hv, hw, hl, hr⟩ := hI.leaf i hi
    have hik : i ≠ k := by omega
    obtain ⟨sv, sl, sr, sw⟩ := hsame i hik
    exact ⟨e, he, by rw [sv, hv], by rw [sw, hw], by rw [sl, hl], by rw [sr, hr]⟩
  · intro i hi1 hi2
    by_cases hik : i = k
    · subst hik
      rw [hNk]
      refine ⟨by simpa using hkfields.1, m1, m2, rfl, rfl, hm1k, hm2k, ?_⟩
      obtain ⟨_, _, _, swm1⟩ := hsame m1 hm1nk
      obtain ⟨_, _, _, swm2⟩ := hsame m2 hm2nk
      simp only
      rw [swm1, swm2]
    · have hik' : i < k := by omega
      obtain ⟨hv, l, r, hl, hr, hli, hri, hw⟩ := hI.internal i hi1 hik'
      obtain ⟨sv, sl, sr, sw⟩ := hsame i hik
      obtain ⟨_, _, _, swl⟩ := hsame l (by omega)
      obtain ⟨_, _, _, swr⟩ := hsame r (by omega)
      exact ⟨by rw [sv, hv], l, r, by rw [sl, hl], by rw [sr, hr], hli, hri,
        by rw [sw, swl, swr, hw]⟩
  · intro i hi
    have hik : i ≠ k := by omega
    have him1 : i ≠ m1 := by omega
    have him2 : i ≠ m2 := by omega
    rw [hNx i hik him1 him2]
    exact hI.fresh i (by omega)
  · intro j p hp
    by_cases hjk : j = k
    · subst hjk
      rw [hNk] at hp
      simp only at hp
      rw [hkfields.2.2.2.1] at hp
      exact absurd hp (by simp)
    · by_cases hjm1 : j = m1
      · subst hjm1
        rw [hNm1] at hp
        simp only at hp
        injection hp with hpk
        obtain rfl : p = k := hpk.symm
        refine ⟨hk1, Nat.lt_succ_self _, ?_⟩
        rw [hNk]
        left
        rfl
      · by_cases hjm2 : j = m2
        · subst hjm2
          rw [hNm2] at hp
          simp only at hp
          injection hp with hpk
          obtain rfl : p = k := hpk.symm
          refine ⟨hk1, Nat.lt_succ_self _, ?_⟩
          rw [hNk]
          right
          rfl
        · rw [hNx j hjk hjm1 hjm2] at hp
          obtain ⟨hpn, hpk, hlink⟩ := hI.par j p hp
          refine ⟨hpn, by omega, ?_⟩
          obtain ⟨_, sl, sr, _⟩ := hsame p (by omega)
          rw [sl, sr]
          exact hlink

theorem nodeAt_initNodes (cw : List (Char × Nat)) (total i : Nat) :
    nodeAt (HuffmanTree.initNodes cw total) i =
      if i < total then
        (match cw.get? i with
         | some e => { HuffmanNode.new with value := some e.1, weight := e.2 }
         | none => HuffmanNode.new)
      else HuffmanNode.new := by
  by_cases h : i < total
  · rw [if_pos h]
    simp [nodeAt, HuffmanTree.initNodes, List.getD, List.getElem?_map,
      List.getElem?_range, h, List.get?_eq_getElem?]
  · rw [if_neg h]
    apply List.getD_eq_default
    simp only [HuffmanTree.initNodes, List.length_map, List.length_range]
    omega

theorem initNodes_buildInv (cw : List (Char × Nat)) (h : cw.length ≠ 0) :
    BuildInv cw cw.length (HuffmanTree.initNodes cw (2 * cw.length - 1)) := by
  refine ⟨?_, ?_, ?_, ?_, ?_⟩
  · simp [HuffmanTree.initNodes]
  · intro i hi
    have hlt : i < 2 * cw.length - 1 := by omega
    rw [nodeAt_initNodes, if_pos hlt]
    obtain ⟨e, he⟩ : ∃ e, cw.get? i = some e :=
      ⟨cw.get ⟨i, hi⟩, List.get?_eq_get hi⟩
    rw [he]
    exact ⟨e, rfl, rfl, rfl, rfl, rfl⟩
  · intro i hi1 hi2
    omega
  · intro i hi
    rw [nodeAt_initNodes]
    by_cases h' : i < 2 * cw.length - 1
    · rw [if_pos h', List.get?_eq_none.mpr (by omega : cw.length ≤ i)]
      exact ⟨rfl, rfl, rfl, rfl, rfl⟩
    · rw [if_neg h']
      exact ⟨rfl, rfl, rfl, rfl, rfl⟩
  · intro j p hp
    rw [nodeAt_initNodes] at hp
    by_cases h' : j < 2 * cw.length - 1
    · rw [if_pos h'] at hp
      cases hg : cw.get? j <;> rw [hg] at hp <;> simp [HuffmanNode.new] at hp
    · rw [if_neg h'] at hp
      simp [HuffmanNode.new] at hp

theorem buildLoop_inv (cw : List (Char × Nat)) :
    ∀ (cnt start : Nat) (nodes₀ nodesF : List HuffmanNode),
    cw.length ≤ start → start + cnt ≤ 2 * cw.length - 1 →
    BuildInv cw start nodes₀ →
    (List.range' start cnt).foldlM HuffmanTree.buildStep nodes₀ = some nodesF →
    BuildInv cw (start + cnt) nodesF := by
  intro cnt
  induction cnt with
  | zero =>
    intro start n₀ nF h1 h2 hI h
    simp only [show List.range' start 0 = [] from rfl, List.foldlM_nil,
      Option.pure_def, Option.some.injEq] at h
    subst h
    simpa using hI
  | succ cnt ih =>
    intro start n₀ nF h1 h2 hI h
    rw [List.range'_succ] at h
    simp only [List.foldlM_cons, Option.bind_eq_bind, Option.bind_eq_some] at h
    obtain ⟨n₁, hstep, hrest⟩ := h
    have hI1 := buildStep_inv h1 (by omega) hI hstep
    have hres := ih (start + 1) n₁ nF (by omega) (by omega) hI1 hrest
    rw [show start + (cnt + 1) = start + 1 + cnt by omega]
    exact hres

theorem build_inv {cw : List (Char × Nat)} {nodes : List HuffmanNode}
    (h : HuffmanTree.build cw = some nodes) :
    cw.length ≠ 0 ∧ BuildInv cw (2 * cw.length - 1) nodes := by
  by_cases hn : cw.length = 0
  · rw [HuffmanTree.build] at h
    simp [hn] at h
  · rw [HuffmanTree.build] at h
    simp only [hn, reduceIte] at h
    refine ⟨hn, ?_⟩
    have := buildLoop_inv cw (2 * cw.length - 1 - cw.length) cw.length _ _
      (le_refl _) (by omega) (initNodes_buildInv cw hn) h
    rwa [show cw.length + (2 * cw.length - 1 - cw.length) = 2 * cw.length - 1 by omega] at this

theorem build_goodArena {cw : List (Char × Nat)} {nodes : List HuffmanNode}
    (h : HuffmanTree.build cw = some nodes) : GoodArena nodes := by
  obtain ⟨hn, hI⟩ := build_inv h
  intro i
  by_cases h1 : i < cw.length
  · obtain ⟨e, _, hv, _, hl, hr⟩ := hI.leaf i h1
    refine ⟨fun _ => ⟨hl, hr⟩, fun j hj => ?_, fun j hj => ?_⟩
    · rw [hl] at hj
      exact absurd hj (by simp)
    · rw [hr] at hj
      exact absurd hj (by simp)
  · by_cases h2 : i < 2 * cw.length - 1
    · obtain ⟨hv, l, r, hl, hr, hli, hri, _⟩ := hI.internal i (by omega) h2
      refine ⟨fun hs => ?_, fun j hj => ?_, fun j hj => ?_⟩
      · rw [hv] at hs
        simp at hs
      · rw [hl] at hj
        injection hj with hh
        omega
      · rw [hr] at hj
        injection hj with hh
        omega
    · obtain ⟨hv, hl, hr, _, _⟩ := hI.fresh i (by omega)
      refine ⟨fun _ => ⟨hl, hr⟩, fun j hj => ?_, fun j hj => ?_⟩
      · rw [hl] at hj
        exact absurd hj (by simp)
      · rw [hr] at hj
        exact absurd hj (by simp)

/-- C3: for every input, in the binary map built from the constructed tree, no
character's bit sequence is a prefix of another character's bit sequence. -/
theorem c3_prefix_free (source : List Char) (nodes : List HuffmanNode)
    (hlen : 2 ≤ (CharWeightMap.build source).length)
    (hb : HuffmanTree.build (CharWeightMap.build source) = some nodes) :
    ∀ c₁ c₂ v₁ v₂,
      assocGet (HuffmanBinaryMap.build nodes) c₁ = some v₁ →
      assocGet (HuffmanBinaryMap.build nodes) c₂ = some v₂ →
      c₁ ≠ c₂ → ¬ (v₁ <+: v₂) := by
  have hG := build_goodArena hb
  intro c₁ c₂ v₁ v₂ h₁ h₂ hne
  have hm₁ := assocGet_mem h₁
  have hm₂ := assocGet_mem h₂
  rw [HuffmanBinaryMap.build, treeDfs_eq_foldl] at hm₁ hm₂
  have he₁ := (mem_foldl_insert _ _ _ hm₁).resolve_left (by simp)
  have he₂ := (mem_foldl_insert _ _ _ hm₂).resolve_left (by simp)
  have hp := subtreeEntries_pairwise nodes hG nodes.length (some (nodes.length - 1)) []
  have hsymm : Symmetric (fun (e₁ e₂ : Char × List Bool) =>
      ¬ (e₁.2 <+: e₂.2) ∧ ¬ (e₂.2 <+: e₁.2)) := by
    intro a b hab
    exact ⟨hab.2, hab.1⟩
  have hneq : ((c₁, v₁) : Char × List Bool) ≠ (c₂, v₂) := by
    intro hEq
    exact hne (congrArg Prod.fst hEq)
  exact (hp.forall hsymm he₁ he₂ hneq).1

/-- Witness for C3 at the concrete input `"aab"`. -/
theorem c3_prefix_free_witness :
    2 ≤ (CharWeightMap.build "aab".data).length ∧ ¬ ([true] <+: [false]) :=
  ⟨by decide,
    c3_prefix_free "aab".data
      [{ value := some 'a', weight := 2, parent := some 2, left := none, right := none },
       { value := some 'b', weight := 1, parent := some 2, left := none, right := none },
       { value := none, weight := 3, parent := none, left := some 1, right := some 0 }]
      (by decide) (by decide) 'a' 'b' [true] [false] (by decide) (by decide) (by decide)⟩

/-! ### Structure of the configuration text and its parse (C9) -/

theorem splitOnSep_nil (sep : Char) : splitOnSep sep [] = [[]] := rfl

theorem splitOnSep_cons (sep c : Char) (t : List Char) :
    splitOnSep sep (c :: t) =
      if c = sep then [] :: splitOnSep sep t
      else
        match splitOnSep sep t with
        | [] => [[c]]
        | a :: as => (c :: a) :: as := rfl

theorem splitOnSep_no_sep {sep : Char} {s : List Char} (h : sep ∉ s) :
    splitOnSep sep s = [s] := by
  induction s with
  | nil => rfl
  | cons c t ih =>
    have hc : c ≠ sep := fun hEq => h (hEq ▸ List.mem_cons_self c t)
    rw [splitOnSep_cons, if_neg hc, ih (fun hm => h (List.mem_cons_of_mem _ hm))]

theorem splitOnSep_around {sep : Char} {xs : List Char} (ys : List Char) (h : sep ∉ xs) :
    splitOnSep sep (xs ++ sep :: ys) = xs :: splitOnSep sep ys := by
  induction xs with
  | nil =>
    rw [List.nil_append, splitOnSep_cons, if_pos rfl]
  | cons c t ih =>
    have hc : c ≠ sep := fun hEq => h (hEq ▸ List.mem_cons_self c t)
    rw [List.cons_append, splitOnSep_cons, if_neg hc,
      ih (fun hm => h (List.mem_cons_of_mem _ hm))]

theorem mem_bitChars {c : Char} {v : List Bool} (h : c ∈ bitChars v) :
    c = '0' ∨ c = '1' := by
  rw [bitChars, List.mem_map] at h
  obtain ⟨b, _, hb⟩ := h
  cases b
  · exact Or.inl hb.symm
  · exact Or.inr hb.symm

theorem colon_not_mem_bitChars (v : List Bool) : ':' ∉ bitChars v := by
  intro h
  rcases mem_bitChars h with h' | h' <;> exact absurd h' (by decide)

theorem newline_not_mem_bitChars (v : List Bool) : '\n' ∉ bitChars v := by
  intro h
  rcases mem_bitChars h with h' | h' <;> exact absurd h' (by decide)

theorem display_eq (bm : List (Char × List Bool)) :
    HuffmanBinaryMap.display bm = (bm.map entryLine).flatten := by
  suffices h : ∀ buf, bm.foldl (fun b e => b ++ entryLine e) buf
      = buf ++ (bm.map entryLine).flatten by
    simpa [HuffmanBinaryMap.display] using h []
  induction bm with
  | nil => intro buf; simp
  | cons e rest ih =>
    intro buf
    simp only [List.foldl_cons, List.map_cons, List.flatten_cons, ih]
    rw [List.append_assoc]

/-- The segments a configuration line contributes to the newline-split of the
configuration text: an ordinary symbol contributes its own line, while the
newline symbol's line is split by the symbol itself into an empty segment and
a segment with an empty string before the colon. -/
def lineSegs (e : Char × List Bool) : List (List Char) :=
  if e.1 = '\n' then [[], ':' :: bitChars e.2] else [e.1 :: ':' :: bitChars e.2]

theorem splitOnSep_display (bm : List (Char × List Bool)) :
    splitOnSep '\n' (HuffmanBinaryMap.display bm) =
      (bm.map lineSegs).flatten ++ [[]] := by
  rw [display_eq]
  induction bm with
  | nil => rfl
  | cons e rest ih =>
    obtain ⟨c, v⟩ := e
    simp only [List.map_cons, List.flatten_cons]
    by_cases hc : c = '\n'
    · subst hc
      rw [entryLine]
      simp only
      rw [show ('\n' :: ':' :: bitChars v ++ ['\n']) ++ (rest.map entryLine).flatten
          = '\n' :: ((':' :: bitChars v) ++ '\n' :: (rest.map entryLine).flatten) by simp]
      rw [splitOnSep_cons, if_pos rfl]
      rw [splitOnSep_around _ (by
        intro hm
        rcases List.mem_cons.mp hm with h' | h'
        · exact absurd h' (by decide)
        · exact newline_not_mem_bitChars v h')]
      rw [ih, lineSegs]
      simp
    · rw [entryLine]
      simp only
      rw [show (c :: ':' :: bitChars v ++ ['\n']) ++ (rest.map entryLine).flatten
          = (c :: ':' :: bitChars v) ++ '\n' :: (rest.map entryLine).flatten by simp]
      rw [splitOnSep_around _ (by
        intro hm
        rcases List.mem_cons.mp hm with h' | h'
        · exact absurd h'.symm hc
        rcases List.mem_cons.mp h' with h'' | h''
        · exact absurd h'' (by decide)
        · exact newline_not_mem_bitChars v h'')]
      rw [ih, lineSegs, if_neg hc]
      simp

theorem buildLine_empty (cfg : DecodeConfig) :
    DecodeConfig.buildLine cfg [] = some cfg := rfl

theorem buildLine_newline_key (cfg : DecodeConfig) (bits : List Char)
    (hb : ':' ∉ bits) :
    DecodeConfig.buildLine cfg (':' :: bits) =
      some { inner := insertAssoc cfg.inner bits '\n', space := cfg.space } := by
  rw [DecodeConfig.buildLine]
  rw [splitOnSep_cons, if_pos rfl, splitOnSep_no_sep hb]
  rfl

theorem buildLine_skip_colon (cfg : DecodeConfig) (bits : List Char)
    (hb : ':' ∉ bits) :
    DecodeConfig.buildLine cfg (':' :: ':' :: bits) = some cfg := by
  rw [DecodeConfig.buildLine]
  rw [splitOnSep_cons, if_pos rfl, splitOnSep_cons, if_pos rfl, splitOnSep_no_sep hb]
  rfl

theorem buildLine_symbol (cfg : DecodeConfig) (c : Char) (bits : List Char)
    (hc : c ≠ ':') (hb : ':' ∉ bits) :
    DecodeConfig.buildLine cfg (c :: ':' :: bits) =
      some { inner := insertAssoc cfg.inner bits c, space := cfg.space } := by
  have hcm : ':' ∉ [c] := fun hm => hc (List.mem_singleton.mp hm).symm
  have h5 : ¬([c] = "space".data) := by
    intro hEq
    have := congrArg List.length hEq
    simp at this
  rw [DecodeConfig.buildLine]
  rw [show (c :: ':' :: bits) = [c] ++ ':' :: bits by simp]
  rw [splitOnSep_around _ hcm, splitOnSep_no_sep hb]
  rw [if_pos (by simp), show [[c], bits].getD 0 [] = [c] from rfl,
    show [[c], bits].getD 1 [] = bits from rfl]
  rw [if_neg (by simp), if_neg h5]

theorem someBind {α β : Type} (a : α) (f : α → Option β) :
    (some a >>= f) = f a := rfl

theorem decRepr_facts (space : Nat) (hs : space ≤ 7) :
    ∃ d, decRepr space = [d] ∧ d ≠ '\n' ∧ d ≠ ':' ∧ parseU8 [d] = some space := by
  interval_cases space <;> exact ⟨_, rfl, by decide, by decide, by decide⟩

theorem buildLine_space (cfg : DecodeConfig) (space : Nat) (hs : space ≤ 7) :
    DecodeConfig.buildLine cfg ("space:".data ++ decRepr space) =
      some { inner := insertAssoc cfg.inner (decRepr space) 's', space := space } := by
  obtain ⟨d, hd, _, hdc, hp⟩ := decRepr_facts space hs
  rw [hd]
  rw [show ("space:".data ++ [d]) = "space".data ++ ':' :: [d] from rfl]
  rw [DecodeConfig.buildLine, splitOnSep_around _ (by decide),
    splitOnSep_no_sep (by simpa using (Ne.symm hdc))]
  rw [if_pos (by simp), show ["space".data, [d]].getD 0 [] = "space".data from rfl,
    show ["space".data, [d]].getD 1 [] = [d] from rfl]
  rw [if_neg (by decide), if_pos rfl, hp]

/-- The binding a configuration line contributes to the parsed map: lines for
the colon symbol are skipped (their segment count is 3), every other symbol
binds its bit string. -/
def entryInserts (e : Char × List Bool) : List (List Char × Char) :=
  if e.1 = ':' then [] else [(bitChars e.2, e.1)]

theorem processLines (bm : List (Char × List Bool)) :
    ∀ cfg : DecodeConfig,
    ((bm.map lineSegs).flatten ++ [[]]).foldlM DecodeConfig.buildLine cfg =
      some { inner := ((bm.map entryInserts).flatten).foldl
               (fun m p => insertAssoc m p.1 p.2) cfg.inner,
             space := cfg.space } := by
  induction bm with
  | nil =>
    intro cfg
    simp [buildLine_empty]
  | cons e rest ih =>
    intro cfg
    obtain ⟨c, v⟩ := e
    simp only [List.map_cons, List.flatten_cons, List.append_assoc]
    by_cases hc : c = '\n'
    · subst hc
      rw [show lineSegs ('\n', v) = [[], ':' :: bitChars v] from rfl]
      rw [show (([[], ':' :: bitChars v] : List (List Char))
          ++ ((rest.map lineSegs).flatten ++ [[]]))
          = [] :: (':' :: bitChars v) :: ((rest.map lineSegs).flatten ++ [[]]) from rfl]
      rw [List.foldlM_cons, buildLine_empty, someBind]
      rw [List.foldlM_cons, buildLine_newline_key cfg _ (colon_not_mem_bitChars v)]
      rw [someBind, ih]
      rw [show entryInserts ('\n', v) = [(bitChars v, '\n')] from rfl]
      simp [List.foldl_append]
    · by_cases hcc : c = ':'
      · subst hcc
        rw [show lineSegs (':', v) = [':' :: ':' :: bitChars v] from by simp [lineSegs]]
        rw [show (([':' :: ':' :: bitChars v] : List (List Char))
            ++ ((rest.map lineSegs).flatten ++ [[]]))
            = (':' :: ':' :: bitChars v) :: ((rest.map lineSegs).flatten ++ [[]]) from rfl]
        rw [List.foldlM_cons, buildLine_skip_colon cfg _ (colon_not_mem_bitChars v)]
        rw [someBind, ih]
        rw [show entryInserts (':', v) = [] from by simp [entryInserts]]
        simp
      · rw [show lineSegs (c, v) = [c :: ':' :: bitChars v] from by simp [lineSegs, hc]]
        rw [show (([c :: ':' :: bitChars v] : List (List Char))
            ++ ((rest.map lineSegs).flatten ++ [[]]))
            = (c :: ':' :: bitChars v) :: ((rest.map lineSegs).flatten ++ [[]]) from rfl]
        rw [List.foldlM_cons, buildLine_symbol cfg c _ hcc (colon_not_mem_bitChars v)]
        rw [someBind, ih]
        rw [show entryInserts (c, v) = [(bitChars v, c)] from by simp [entryInserts, hcc]]
        simp [List.foldl_append]

theorem splitOnSep_configText (space : Nat) (bm : List (Char × List Bool))
    (hs : space ≤ 7) :
    splitOnSep '\n' (HuffmanCodec.configText space bm) =
      ("space:".data ++ decRepr space) :: ((bm.map lineSegs).flatten ++ [[]]) := by
  obtain ⟨d, hd, hdn, _, _⟩ := decRepr_facts space hs
  rw [HuffmanCodec.configText]
  rw [splitOnSep_around _ (by
    intro hm
    rcases List.mem_append.mp hm with h' | h'
    · exact absurd h' (by decide)
    · rw [hd] at h'
      exact hdn (List.mem_singleton.mp h').symm)]
  rw [splitOnSep_display]

theorem build_configText (space : Nat) (bm : List (Char × List Bool)) (hs : space ≤ 7) :
    DecodeConfig.build (HuffmanCodec.configText space bm) =
      some { inner := ((bm.map entryInserts).flatten).foldl
               (fun m p => insertAssoc m p.1 p.2) (insertAssoc [] (decRepr space) 's'),
             space := space } := by
  rw [DecodeConfig.build, splitOnSep_configText space bm hs]
  rw [List.foldlM_cons, buildLine_space _ space hs, someBind]
  rw [processLines]

/-- First-success choice on options (used to state reverse lookups). -/
def orO : Option α → Option α → Option α
  | some v, _ => some v
  | none, b => b

theorem assocGet_append [DecidableEq κ] (l₁ l₂ : List (κ × α)) (k : κ) :
    assocGet (l₁ ++ l₂) k = orO (assocGet l₁ k) (assocGet l₂ k) := by
  induction l₁ with
  | nil => rfl
  | cons p rest ih =>
    rw [List.cons_append, assocGet, assocGet]
    by_cases hp : p.1 = k
    · rw [if_pos hp, if_pos hp]
      rfl
    · rw [if_neg hp, if_neg hp, ih]

theorem assocGet_insertAssoc [DecidableEq κ] (m : List (κ × α)) (k : κ) (v : α) (k' : κ) :
    assocGet (insertAssoc m k v) k' = if k = k' then some v else assocGet m k' := by
  induction m with
  | nil => rfl
  | cons p rest ih =>
    rw [insertAssoc]
    by_cases hp : p.1 = k
    · rw [if_pos hp, assocGet, assocGet]
      by_cases hk : k = k'
      · rw [if_pos hk, if_pos hk]
      · rw [if_neg hk, if_neg hk, if_neg (hp ▸ hk)]
    · rw [if_neg hp, assocGet, assocGet, ih]
      by_cases hpk : p.1 = k'
      · rw [if_pos hpk, if_neg (show ¬ k = k' from fun hk => hp (hpk.trans hk.symm)), if_pos hpk]
      · rw [if_neg hpk, if_neg hpk]

theorem assocGet_foldl_insert [DecidableEq κ] :
    ∀ (L m₀ : List (κ × α)) (k : κ),
    assocGet (L.foldl (fun m p => insertAssoc m p.1 p.2) m₀) k =
      orO (assocGet L.reverse k) (assocGet m₀ k) := by
  intro L
  induction L with
  | nil => intro m₀ k; rfl
  | cons p rest ih =>
    intro m₀ k
    rw [List.foldl_cons, ih, List.reverse_cons, assocGet_append, assocGet_insertAssoc]
    cases assocGet rest.reverse k with
    | some w => rfl
    | none =>
      by_cases hp : p.1 = k
      · rw [if_pos hp]
        rw [show assocGet [p] k = some p.2 from by rw [assocGet, if_pos hp]]
        rfl
      · rw [if_neg hp]
        rw [show assocGet [p] k = none from by rw [assocGet, if_neg hp]; rfl]
        rfl

theorem assocGet_of_mem_keysNodup [DecidableEq κ] {L : List (κ × α)} {k : κ} {v : α}
    (hmem : (k, v) ∈ L) (hnd : (L.map Prod.fst).Nodup) : assocGet L k = some v := by
  induction L with
  | nil => exact absurd hmem (by simp)
  | cons p rest ih =>
    rw [List.map_cons, List.nodup_cons] at hnd
    rcases List.mem_cons.mp hmem with h | h
    · rw [← h, assocGet, if_pos rfl]
    · have hpk : p.1 ≠ k := by
        intro hEq
        exact hnd.1 (hEq ▸ (List.mem_map_of_mem Prod.fst h : k ∈ rest.map Prod.fst))
      rw [assocGet, if_neg hpk]
      exact ih h hnd.2

theorem entryInserts_keys_sublist (bm : List (Char × List Bool)) :
    ((bm.map entryInserts).flatten.map Prod.fst).Sublist
      (bm.map (fun e => bitChars e.2)) := by
  induction bm with
  | nil => simp
  | cons e rest ih =>
    simp only [List.map_cons, List.flatten_cons, List.map_append]
    by_cases hc : e.1 = ':'
    · rw [show entryInserts e = [] from by simp [entryInserts, hc]]
      exact ih.cons _
    · rw [show entryInserts e = [(bitChars e.2, e.1)] from by simp [entryInserts, hc]]
      exact ih.cons₂ _

/-- C9: when the newline character is itself a coded symbol, the serialized
codebook contains a line with an empty string before the colon and the
symbol's bit string after it, and `DecodeConfig::build` recovers that line as
a binding from the bit string to the newline character.  The bit strings of
the table are assumed distinct, as produced by the prefix-free code. -/
theorem c9_newline_line (space : Nat) (bm : List (Char × List Bool)) (v : List Bool)
    (hs : space ≤ 7) (hmem : ('\n', v) ∈ bm)
    (hnd : (bm.map (fun e => bitChars e.2)).Nodup) :
    (':' :: bitChars v) ∈ splitOnSep '\n' (HuffmanCodec.configText space bm) ∧
    ∃ cfg, DecodeConfig.build (HuffmanCodec.configText space bm) = some cfg ∧
      DecodeConfig.get cfg (bitChars v) = some '\n' := by
  have hflat : ((bitChars v, '\n') : List Char × Char) ∈ (bm.map entryInserts).flatten := by
    rw [List.mem_flatten]
    refine ⟨entryInserts ('\n', v), List.mem_map_of_mem entryInserts hmem, ?_⟩
    rw [show entryInserts ('\n', v) = [(bitChars v, '\n')] from by simp [entryInserts]]
    exact List.mem_singleton.mpr rfl
  constructor
  · rw [splitOnSep_configText space bm hs]
    refine List.mem_cons_of_mem _ (List.mem_append_left _ ?_)
    rw [List.mem_flatten]
    refine ⟨lineSegs ('\n', v), List.mem_map_of_mem lineSegs hmem, ?_⟩
    rw [show lineSegs ('\n', v) = [[], ':' :: bitChars v] from rfl]
    simp
  · refine ⟨_, build_configText space bm hs, ?_⟩
    rw [DecodeConfig.get]
    simp only
    rw [assocGet_foldl_insert]
    have hknd : (((bm.map entryInserts).flatten.reverse).map Prod.fst).Nodup := by
      rw [List.map_reverse, List.nodup_reverse]
      exact (entryInserts_keys_sublist bm).nodup hnd
    rw [assocGet_of_mem_keysNodup (List.mem_reverse.mpr hflat) hknd]
    rfl

/-- Witness for C9 at the table of input `"a\n\n"` (codes `a ↦ 0`,
newline `↦ 1`, padding 5). -/
theorem c9_newline_line_witness :
    (':' :: bitChars [true]) ∈
      splitOnSep '\n' (HuffmanCodec.configText 5 [('a', [false]), ('\n', [true])]) ∧
    ∃ cfg, DecodeConfig.build
        (HuffmanCodec.configText 5 [('a', [false]), ('\n', [true])]) = some cfg ∧
      DecodeConfig.get cfg (bitChars [true]) = some '\n' :=
  c9_newline_line 5 [('a', [false]), ('\n', [true])] [true]
    (by decide) (by decide) (by decide)

/-! ### Abstract weight-level account of the greedy selection (C2) -/

/-- The weight value selected by one `find_min` scan, mirrored on the list of
parentless weights in arena order. -/
def scanMinVal : List Nat → Nat → Option Nat → Option Nat
  | [], _, res => res
  | w :: rest, min, res =>
    if w < min then scanMinVal rest w (some w) else scanMinVal rest min res

/-- The weight selected by `find_min` from a pool of weights. -/
def pickMin (ws : List Nat) : Option Nat := scanMinVal ws U64MAX none

theorem scanMinVal_min :
    ∀ (ws : List Nat) (min : Nat) (res : Option Nat) (w : Nat),
    scanMinVal ws min res = some w →
    (res = some w ∧ ∀ x ∈ ws, min ≤ x) ∨ (w ∈ ws ∧ w < min ∧ ∀ x ∈ ws, w ≤ x) := by
  intro ws
  induction ws with
  | nil => intro min res w h; exact Or.inl ⟨h, by simp⟩
  | cons v rest ih =>
    intro min res w h
    rw [scanMinVal] at h
    by_cases hv : v < min
    · rw [if_pos hv] at h
      rcases ih _ _ _ h with ⟨hres, hall⟩ | ⟨hmem, hlt, hall⟩
      · injection hres with hres
        subst hres
        refine Or.inr ⟨List.mem_cons_self _ _, hv, ?_⟩
        intro x hx
        rcases List.mem_cons.mp hx with h' | h'
        · omega
        · exact hall x h'
      · refine Or.inr ⟨List.mem_cons_of_mem _ hmem, by omega, ?_⟩
        intro x hx
        rcases List.mem_cons.mp hx with h' | h'
        · omega
        · exact hall x h'
    · rw [if_neg hv] at h
      rcases ih _ _ _ h with ⟨hres, hall⟩ | ⟨hmem, hlt, hall⟩
      · refine Or.inl ⟨hres, ?_⟩
        intro x hx
        rcases List.mem_cons.mp hx with h' | h'
        · omega
        · exact hall x h'
      · refine Or.inr ⟨List.mem_cons_of_mem _ hmem, hlt, ?_⟩
        intro x hx
        rcases List.mem_cons.mp hx with h' | h'
        · omega
        · exact hall x h'

theorem scanMinVal_none :
    ∀ (ws : List Nat) (min : Nat) (res : Option Nat),
    scanMinVal ws min res = none → res = none ∧ ∀ x ∈ ws, min ≤ x := by
  intro ws
  induction ws with
  | nil => intro min res h; exact ⟨h, by simp⟩
  | cons v rest ih =>
    intro min res h
    rw [scanMinVal] at h
    by_cases hv : v < min
    · rw [if_pos hv] at h
      obtain ⟨habs, _⟩ := ih _ _ h
      exact absurd habs (by simp)
    · rw [if_neg hv] at h
      obtain ⟨hres, hall⟩ := ih _ _ h
      refine ⟨hres, ?_⟩
      intro x hx
      rcases List.mem_cons.mp hx with h' | h'
      · omega
      · exact hall x h'

theorem pickMin_mem {ws : List Nat} {w : Nat} (h : pickMin ws = some w) : w ∈ ws := by
  rcases scanMinVal_min ws U64MAX none w h with ⟨habs, _⟩ | ⟨hmem, _, _⟩
  · exact absurd habs (by simp)
  · exact hmem

theorem pickMin_le {ws : List Nat} {w : Nat} (h : pickMin ws = some w) :
    ∀ x ∈ ws, w ≤ x := by
  rcases scanMinVal_min ws U64MAX none w h with ⟨habs, _⟩ | ⟨_, _, hall⟩
  · exact absurd habs (by simp)
  · exact hall

theorem pickMin_lt_max {ws : List Nat} {w : Nat} (h : pickMin ws = some w) : w < U64MAX := by
  rcases scanMinVal_min ws U64MAX none w h with ⟨habs, _⟩ | ⟨_, hlt, _⟩
  · exact absurd habs (by simp)
  · exact hlt

theorem pickMin_spec {ws : List Nat} (hlt : ∀ w ∈ ws, w < U64MAX) (hne : ws ≠ []) :
    ∃ w1, pickMin ws = some w1 ∧ w1 ∈ ws ∧ ∀ w ∈ ws, w1 ≤ w := by
  cases h : pickMin ws with
  | none =>
    obtain ⟨_, hall⟩ := scanMinVal_none ws U64MAX none h
    obtain ⟨v, hv⟩ := List.exists_mem_of_ne_nil ws hne
    exact absurd (hall v hv) (by have := hlt v hv; omega)
  | some w1 => exact ⟨w1, rfl, pickMin_mem h, pickMin_le h⟩

/-- The total cost charged by the greedy merging process on a pool of weights:
each merge of the two scan-minima charges their sum and replaces them by it at
the end of the pool. -/
def hCostW (ws : List Nat) : Nat :=
  match h1 : pickMin ws with
  | none => 0
  | some w1 =>
    match h2 : pickMin (ws.erase w1) with
    | none => 0
    | some w2 => w1 + w2 + hCostW ((ws.erase w1).erase w2 ++ [w1 + w2])
termination_by ws.length
decreasing_by
  have m1 := pickMin_mem h1
  have m2 := pickMin_mem h2
  have l1 : (ws.erase w1).length = ws.length - 1 := List.length_erase_of_mem m1
  have l2 : ((ws.erase w1).erase w2).length = (ws.erase w1).length - 1 :=
    List.length_erase_of_mem m2
  have p2 : 0 < (ws.erase w1).length := List.length_pos_of_mem m2
  simp only [List.length_append, List.length_cons, List.length_nil, l2, l1]
  omega

theorem hCostW_merge {ws : List Nat} {w1 w2 : Nat}
    (h1 : pickMin ws = some w1) (h2 : pickMin (ws.erase w1) = some w2) :
    hCostW ws = w1 + w2 + hCostW ((ws.erase w1).erase w2 ++ [w1 + w2]) := by
  rw [hCostW]
  split
  · next heq => rw [h1] at heq; cases heq
  · next u1 heq =>
    rw [h1] at heq
    injection heq with heq
    subst heq
    split
    · next heq2 => rw [h2] at heq2; cases heq2
    · next u2 heq2 =>
      rw [h2] at heq2
      injection heq2 with heq2
      subst heq2
      rfl

theorem hCostW_stop {ws : List Nat} {w1 : Nat}
    (h1 : pickMin ws = some w1) (h2 : pickMin (ws.erase w1) = none) :
    hCostW ws = 0 := by
  rw [hCostW]
  split
  · rfl
  · next u1 heq =>
    rw [h1] at heq
    injection heq with heq
    subst heq
    split
    · rfl
    · next u2 heq2 => rw [h2] at heq2; cases heq2

theorem hCostW_none {ws : List Nat} (h1 : pickMin ws = none) : hCostW ws = 0 := by
  rw [hCostW]
  split
  · rfl
  · next u1 heq => rw [h1] at heq; cases heq

/-! ### Rearranging prefix codes without increasing cost (C2) -/

/-- Total code length of an assignment over a frequency table. -/
def totalLen (S : List (Char × Nat)) (f : Char → List Bool) : Nat :=
  (S.map (fun e => (f e.1).length)).sum

/-- Point update of a code assignment. -/
def updF (f : Char → List Bool) (a : Char) (t : List Bool) : Char → List Bool :=
  fun z => if z = a then t else f z

/-- Transposition of two symbols. -/
def swapK (u v z : Char) : Char := if z = u then v else if z = v then u else z

/-- Exchange of the codes of two symbols. -/
def swapF (f : Char → List Bool) (u v : Char) : Char → List Bool :=
  fun z => f (swapK u v z)

theorem swapK_invol (u v z : Char) : swapK u v (swapK u v z) = z := by
  unfold swapK
  split_ifs <;> simp_all

theorem swapK_inj {u v z₁ z₂ : Char} (h : swapK u v z₁ = swapK u v z₂) : z₁ = z₂ := by
  have := congrArg (swapK u v) h
  rwa [swapK_invol, swapK_invol] at this

theorem swapK_mem {keys : List Char} {u v z : Char}
    (hu : u ∈ keys) (hv : v ∈ keys) (hz : z ∈ keys) : swapK u v z ∈ keys := by
  unfold swapK
  split_ifs <;> assumption

theorem swapF_fst (f : Char → List Bool) (u v : Char) : swapF f u v u = f v := by
  simp [swapF, swapK]

theorem swapF_snd (f : Char → List Bool) (u v : Char) (h : v ≠ u) :
    swapF f u v v = f u := by
  simp [swapF, swapK, h]

theorem swapF_other (f : Char → List Bool) {u v z : Char} (h1 : z ≠ u) (h2 : z ≠ v) :
    swapF f u v z = f z := by
  simp [swapF, swapK, h1, h2]

theorem PFOn_swapF {keys : List Char} {f : Char → List Bool} {u v : Char}
    (hu : u ∈ keys) (hv : v ∈ keys) (hPF : PFOn keys f) :
    PFOn keys (swapF f u v) := by
  intro c₁ h₁ c₂ h₂ hne
  exact hPF (swapK u v c₁) (swapK_mem hu hv h₁) (swapK u v c₂) (swapK_mem hu hv h₂)
    (fun hEq => hne (swapK_inj hEq))

theorem codeCost_cons (e : Char × Nat) (S : List (Char × Nat)) (f : Char → List Bool) :
    codeCost (e :: S) f = e.2 * (f e.1).length + codeCost S f := by
  simp [codeCost]

theorem codeCost_congr {S : List (Char × Nat)} {f g : Char → List Bool}
    (h : ∀ e ∈ S, f e.1 = g e.1) : codeCost S f = codeCost S g := by
  unfold codeCost
  congr 1
  apply List.map_congr_left
  intro e he
  rw [h e he]

theorem codeCost_perm {S T : List (Char × Nat)} (h : S.Perm T) (f : Char → List Bool) :
    codeCost S f = codeCost T f :=
  (h.map _).sum_eq

theorem codeCost_mono {S : List (Char × Nat)} {f g : Char → List Bool}
    (h : ∀ e ∈ S, (g e.1).length ≤ (f e.1).length) : codeCost S g ≤ codeCost S f := by
  unfold codeCost
  apply List.sum_le_sum
  intro e he
  exact Nat.mul_le_mul_left _ (h e he)

theorem totalLen_perm {S T : List (Char × Nat)} (h : S.Perm T) (f : Char → List Bool) :
    totalLen S f = totalLen T f :=
  (h.map _).sum_eq

theorem key_unique {S : List (Char × Nat)} (hnd : (S.map Prod.fst).Nodup)
    {e₁ e₂ : Char × Nat} (h₁ : e₁ ∈ S) (h₂ : e₂ ∈ S) (hk : e₁.1 = e₂.1) : e₁ = e₂ :=
  List.inj_on_of_nodup_map hnd h₁ h₂ hk

theorem two_mem_split {S : List (Char × Nat)} (hnd : (S.map Prod.fst).Nodup)
    {u v : Char} {wu wv : Nat} (hu : (u, wu) ∈ S) (hv : (v, wv) ∈ S) (huv : u ≠ v) :
    ∃ S₀, S.Perm ((u, wu) :: (v, wv) :: S₀) ∧ ∀ e ∈ S₀, e.1 ≠ u ∧ e.1 ≠ v := by
  obtain ⟨l₁, l₂, hS⟩ := List.mem_iff_append.mp hu
  have hv' : (v, wv) ∈ l₁ ++ l₂ := by
    rw [hS] at hv
    rcases List.mem_append.mp hv with h | h
    · exact List.mem_append_left _ h
    · rcases List.mem_cons.mp h with h' | h'
      · exact absurd (congrArg Prod.fst h').symm huv
      · exact List.mem_append_right _ h'
  obtain ⟨m₁, m₂, hM⟩ := List.mem_iff_append.mp hv'
  have hperm : S.Perm ((u, wu) :: (v, wv) :: (m₁ ++ m₂)) := by
    rw [hS]
    refine List.Perm.trans List.perm_middle ?_
    rw [hM]
    exact List.Perm.cons _ List.perm_middle
  refine ⟨m₁ ++ m₂, hperm, ?_⟩
  have hnd' := (hperm.map Prod.fst).nodup_iff.mp hnd
  simp only [List.map_cons, List.nodup_cons, List.mem_cons, List.mem_map] at hnd'
  intro e he
  constructor
  · intro hEq
    exact hnd'.1 (Or.inr ⟨e, he, hEq⟩)
  · intro hEq
    exact hnd'.2.1 ⟨e, he, hEq⟩

theorem codeCost_swapF_le {S : List (Char × Nat)} {f : Char → List Bool}
    (hnd : (S.map Prod.fst).Nodup) {u v : Char} {wu wv : Nat}
    (hu : (u, wu) ∈ S) (hv : (v, wv) ∈ S) (huv : u ≠ v)
    (hw : wu ≤ wv) (hl : (f u).length ≤ (f v).length) :
    codeCost S (swapF f u v) ≤ codeCost S f := by
  obtain ⟨S₀, hperm, hkeys⟩ := two_mem_split hnd hu hv huv
  rw [codeCost_perm hperm, codeCost_perm hperm]
  rw [codeCost_cons, codeCost_cons, codeCost_cons, codeCost_cons]
  simp only
  rw [swapF_fst, swapF_snd f u v (Ne.symm huv)]
  rw [show codeCost S₀ (swapF f u v) = codeCost S₀ f from
    codeCost_congr (fun e he => swapF_other f (hkeys e he).1 (hkeys e he).2)]
  have hmul := mul_add_mul_le_mul_add_mul hw hl
  omega

theorem codes_ne_nil {S : List (Char × Nat)} {f : Char → List Bool}
    (hnd : (S.map Prod.fst).Nodup) (hlen : 2 ≤ S.length)
    (hPF : PFOn (S.map Prod.fst) f) : ∀ e ∈ S, f e.1 ≠ [] := by
  intro e he hnil
  obtain ⟨e₁, e₂, rest, hS⟩ : ∃ e₁ e₂ rest, S = e₁ :: e₂ :: rest := by
    cases S with
    | nil => simp at hlen
    | cons a t =>
      cases t with
      | nil => simp at hlen
      | cons b r => exact ⟨a, b, r, rfl⟩
  have h12 : e₁.1 ≠ e₂.1 := by
    rw [hS] at hnd
    simp only [List.map_cons, List.nodup_cons, List.mem_cons, List.mem_map] at hnd
    intro hEq
    exact hnd.1 (Or.inl hEq)
  obtain ⟨e', he', hne⟩ : ∃ e' ∈ S, e'.1 ≠ e.1 := by
    by_cases hcase : e.1 = e₁.1
    · exact ⟨e₂, by rw [hS]; exact List.mem_cons_of_mem _ (List.mem_cons_self _ _),
        by rw [← hcase] at h12; exact fun hEq => h12 hEq.symm⟩
    · exact ⟨e₁, by rw [hS]; exact List.mem_cons_self _ _, fun hEq => hcase hEq.symm⟩
  have := hPF e.1 (List.mem_map_of_mem Prod.fst he) e'.1
    (List.mem_map_of_mem Prod.fst he') (fun hEq => hne hEq.symm)
  rw [hnil] at this
  exact this List.nil_prefix

theorem exists_maxLen {S : List (Char × Nat)} (f : Char → List Bool) (hne : S ≠ []) :
    ∃ x ∈ S, ∀ e ∈ S, (f e.1).length ≤ (f x.1).length := by
  induction S with
  | nil => exact absurd rfl hne
  | cons e rest ih =>
    by_cases hr : rest = []
    · subst hr
      refine ⟨e, List.mem_cons_self _ _, ?_⟩
      intro e' he'
      rcases List.mem_cons.mp he' with h | h
      · rw [h]
      · simp at h
    · obtain ⟨x, hxmem, hxmax⟩ := ih hr
      by_cases hcase : (f e.1).length ≤ (f x.1).length
      · refine ⟨x, List.mem_cons_of_mem _ hxmem, ?_⟩
        intro e' he'
        rcases List.mem_cons.mp he' with h | h
        · rw [h]; exact hcase
        · exact hxmax e' h
      · refine ⟨e, List.mem_cons_self _ _, ?_⟩
        intro e' he'
        rcases List.mem_cons.mp he' with h | h
        · rw [h]
        · exact le_trans (hxmax e' h) (by omega)

theorem updF_self (f : Char → List Bool) (a : Char) (t : List Bool) :
    updF f a t a = t := by simp [updF]

theorem updF_other (f : Char → List Bool) (a : Char) (t : List Bool) {z : Char}
    (h : z ≠ a) : updF f a t z = f z := by simp [updF, h]

theorem bool_eq_or_eq_not (b c : Bool) : b = c ∨ b = !c := by
  cases b <;> cases c <;> simp

theorem PF_shorten {S : List (Char × Nat)} {f : Char → List Bool} {x : Char × Nat}
    (hnd : (S.map Prod.fst).Nodup)
    (hPF : PFOn (S.map Prod.fst) f)
    (hx : x ∈ S)
    (hmax : ∀ e ∈ S, (f e.1).length ≤ (f x.1).length)
    (hne : f x.1 ≠ [])
    (hnosib : ∀ y ∈ S, y.1 ≠ x.1 →
      f y.1 ≠ (f x.1).dropLast ++ [!((f x.1).getLast hne)]) :
    PFOn (S.map Prod.fst) (updF f x.1 ((f x.1).dropLast)) := by
  have hL : (f x.1).dropLast.length + 1 = (f x.1).length := by
    rw [List.length_dropLast]
    have := List.length_pos.mpr hne
    omega
  have hsplit : (f x.1).dropLast ++ [(f x.1).getLast hne] = f x.1 :=
    List.dropLast_append_getLast hne
  -- no other code has (f x.1).dropLast as a prefix
  have key : ∀ d, d ∈ S.map Prod.fst → d ≠ x.1 → ¬ ((f x.1).dropLast <+: f d) := by
    intro d hd hdx hpre
    obtain ⟨ed, hed, hedk⟩ := List.mem_map.mp hd
    obtain ⟨r, hr⟩ := hpre
    have hlen : (f d).length ≤ (f x.1).length := by
      rw [← hedk]
      exact hmax ed hed
    have hrlen : r.length ≤ 1 := by
      have := congrArg List.length hr
      simp at this
      omega
    match r, hrlen with
    | [], _ =>
      rw [List.append_nil] at hr
      have hs2 := hsplit
      rw [hr] at hs2
      exact hPF d hd x.1 (List.mem_map_of_mem Prod.fst hx) hdx ⟨_, hs2⟩
    | [bit], _ =>
      rcases bool_eq_or_eq_not bit ((f x.1).getLast hne) with hb | hb
      · rw [hb, hsplit] at hr
        exact hPF x.1 (List.mem_map_of_mem Prod.fst hx) d hd (Ne.symm hdx)
          (by rw [← hr])
      · rw [hb] at hr
        rw [← hedk] at hdx hr
        exact hnosib ed hed hdx (by rw [← hr])
  intro c₁ hc₁ c₂ hc₂ hne12
  by_cases h₁ : c₁ = x.1
  · by_cases h₂ : c₂ = x.1
    · exact absurd (h₁.trans h₂.symm) hne12
    · rw [h₁, updF_self, updF_other f x.1 _ h₂]
      exact key c₂ hc₂ h₂
  · by_cases h₂ : c₂ = x.1
    · rw [h₂, updF_self, updF_other f x.1 _ h₁]
      intro hpre
      have : f c₁ <+: f x.1 := hpre.trans (List.dropLast_prefix _)
      exact hPF c₁ hc₁ x.1 (List.mem_map_of_mem Prod.fst hx) (h₂ ▸ hne12) this
    · rw [updF_other f x.1 _ h₁, updF_other f x.1 _ h₂]
      exact hPF c₁ hc₁ c₂ hc₂ hne12

theorem updF_len_le {S : List (Char × Nat)} (f : Char → List Bool) (a : Char) :
    ∀ e ∈ S, ((updF f a ((f a).dropLast)) e.1).length ≤ (f e.1).length := by
  intro e _
  by_cases h : e.1 = a
  · rw [h, updF_self, List.length_dropLast]
    omega
  · rw [updF_other f a _ h]

theorem totalLen_updF_lt {S : List (Char × Nat)} {f : Char → List Bool} {x : Char × Nat}
    (hnd : (S.map Prod.fst).Nodup) (hx : x ∈ S) (hne : f x.1 ≠ []) :
    totalLen S (updF f x.1 ((f x.1).dropLast)) < totalLen S f := by
  obtain ⟨l₁, l₂, hS⟩ := List.mem_iff_append.mp hx
  have hperm : S.Perm (x :: (l₁ ++ l₂)) := by
    rw [hS]
    exact List.perm_middle
  rw [totalLen_perm hperm, totalLen_perm hperm]
  simp only [totalLen, List.map_cons, List.sum_cons]
  have h2 : ∀ e ∈ l₁ ++ l₂, updF f x.1 ((f x.1).dropLast) e.1 = f e.1 := by
    intro e he
    have hnd' := (hperm.map Prod.fst).nodup_iff.mp hnd
    simp only [List.map_cons, List.nodup_cons, List.mem_map] at hnd'
    exact updF_other f x.1 _ (fun hEq => hnd'.1 ⟨e, he, hEq⟩)
  rw [updF_self]
  have hmapeq : (l₁ ++ l₂).map (fun e => ((updF f x.1 ((f x.1).dropLast)) e.1).length)
      = (l₁ ++ l₂).map (fun e => (f e.1).length) := by
    apply List.map_congr_left
    intro e he
    dsimp only
    rw [h2 e he]
  rw [hmapeq]
  have hlt : (f x.1).dropLast.length < (f x.1).length := by
    rw [List.length_dropLast]
    have := List.length_pos.mpr hne
    omega
  omega

theorem sibling_normalize :
    ∀ (N : Nat) (S : List (Char × Nat)) (f : Char → List Bool)
      (a b : Char) (wa wb : Nat),
    totalLen S f ≤ N →
    (S.map Prod.fst).Nodup →
    2 ≤ S.length →
    (a, wa) ∈ S → (b, wb) ∈ S → a ≠ b →
    (∀ e ∈ S, wa ≤ e.2) →
    (∀ e ∈ S, e.1 ≠ a → wb ≤ e.2) →
    PFOn (S.map Prod.fst) f →
    ∃ g t b₁ b₂, PFOn (S.map Prod.fst) g ∧
      codeCost S g ≤ codeCost S f ∧
      b₁ ≠ b₂ ∧ g a = t ++ [b₁] ∧ g b = t ++ [b₂] := by
  intro N
  induction N with
  | zero =>
    intro S f a b wa wb hN hnd hlen ha hb hab hwa hwb hPF
    exfalso
    have hane : f a ≠ [] := codes_ne_nil hnd hlen hPF (a, wa) ha
    have hzero : (f a).length = 0 := by
      have hmem : (f a).length ∈ S.map (fun e => (f e.1).length) :=
        List.mem_map_of_mem (fun e => (f e.1).length) ha
      have hsum : (S.map (fun e => (f e.1).length)).sum = 0 := by
        have : totalLen S f = 0 := by omega
        exact this
      exact List.sum_eq_zero_iff.mp hsum _ hmem
    exact hane (List.length_eq_zero.mp hzero)
  | succ N ih =>
    intro S f a b wa wb hN hnd hlen ha hb hab hwa hwb hPF
    have hSne : S ≠ [] := by
      intro h
      rw [h] at hlen
      simp at hlen
    obtain ⟨x, hxS, hxmax⟩ := exists_maxLen f hSne
    have hxne : f x.1 ≠ [] := codes_ne_nil hnd hlen hPF x hxS
    have hka : a ∈ S.map Prod.fst := List.mem_map_of_mem Prod.fst ha
    have hkb : b ∈ S.map Prod.fst := List.mem_map_of_mem Prod.fst hb
    have hkx : x.1 ∈ S.map Prod.fst := List.mem_map_of_mem Prod.fst hxS
    by_cases hsib : ∃ y ∈ S, y.1 ≠ x.1 ∧
        f y.1 = (f x.1).dropLast ++ [!((f x.1).getLast hxne)]
    · obtain ⟨y, hyS, hyne, hy⟩ := hsib
      have hky : y.1 ∈ S.map Prod.fst := List.mem_map_of_mem Prod.fst hyS
      have hxc : f x.1 = (f x.1).dropLast ++ [(f x.1).getLast hxne] :=
        (List.dropLast_append_getLast hxne).symm
      have hylen : (f y.1).length = (f x.1).length := by
        rw [hy]
        conv_rhs => rw [hxc]
        simp
      have hnn : (f x.1).getLast hxne ≠ !((f x.1).getLast hxne) := by
        cases ((f x.1).getLast hxne) <;> simp
      by_cases hax : a = x.1
      · by_cases hby : b = y.1
        · refine ⟨f, (f x.1).dropLast, (f x.1).getLast hxne, !((f x.1).getLast hxne),
            hPF, le_refl _, hnn, ?_, ?_⟩
          · rw [hax]
            exact hxc
          · rw [hby]
            exact hy
        · have hay : a ≠ y.1 := by
            rw [hax]
            exact fun hEq => hyne hEq.symm
          have hwy : wb ≤ y.2 := hwb y hyS (by
            intro hEq
            rw [hax] at hEq
            exact hyne hEq)
          have hlb : (f b).length ≤ (f y.1).length := by
            rw [hylen]
            exact hxmax (b, wb) hb
          refine ⟨swapF f b y.1, (f x.1).dropLast, (f x.1).getLast hxne,
            !((f x.1).getLast hxne), PFOn_swapF hkb hky hPF,
            codeCost_swapF_le hnd hb hyS hby hwy hlb, hnn, ?_, ?_⟩
          · rw [swapF_other f hab hay, hax]
            exact hxc
          · rw [swapF_fst, hy]
      · by_cases hay : a = y.1
        · by_cases hbx : b = x.1
          · refine ⟨f, (f x.1).dropLast, !((f x.1).getLast hxne),
              (f x.1).getLast hxne, hPF, le_refl _, Ne.symm hnn, ?_, ?_⟩
            · rw [hay]
              exact hy
            · rw [hbx]
              exact hxc
          · have hwx : wb ≤ x.2 := hwb x hxS (fun hEq => hax hEq.symm)
            have hlb : (f b).length ≤ (f x.1).length := hxmax (b, wb) hb
            refine ⟨swapF f b x.1, (f x.1).dropLast, !((f x.1).getLast hxne),
              (f x.1).getLast hxne, PFOn_swapF hkb hkx hPF,
              codeCost_swapF_le hnd hb hxS hbx hwx hlb, Ne.symm hnn, ?_, ?_⟩
            · rw [swapF_other f hab hax, hay, hy]
            · rw [swapF_fst]
              exact hxc
        · have hwx : wa ≤ x.2 := hwa x hxS
          have hla : (f a).length ≤ (f x.1).length := hxmax (a, wa) ha
          have hPF₁ : PFOn (S.map Prod.fst) (swapF f a x.1) := PFOn_swapF hka hkx hPF
          have hcost₁ : codeCost S (swapF f a x.1) ≤ codeCost S f :=
            codeCost_swapF_le hnd ha hxS hax hwx hla
          have hf₁a : swapF f a x.1 a = f x.1 := swapF_fst f a x.1
          have hf₁y : swapF f a x.1 y.1 = f y.1 :=
            swapF_other f (fun hEq => hay hEq.symm) hyne
          by_cases hby : b = y.1
          · refine ⟨swapF f a x.1, (f x.1).dropLast, (f x.1).getLast hxne,
              !((f x.1).getLast hxne), hPF₁, hcost₁, hnn, ?_, ?_⟩
            · rw [hf₁a]
              exact hxc
            · rw [hby, hf₁y, hy]
          · have hwy : wb ≤ y.2 := hwb y hyS (fun hEq => hay hEq.symm)
            have hlb1 : (swapF f a x.1 b).length ≤ (swapF f a x.1 y.1).length := by
              rw [hf₁y, hylen]
              by_cases hbx : b = x.1
              · rw [hbx, swapF_snd f a x.1 (Ne.symm hax)]
                exact hxmax (a, wa) ha
              · rw [swapF_other f (fun hEq => hab hEq.symm) hbx]
                exact hxmax (b, wb) hb
            refine ⟨swapF (swapF f a x.1) b y.1, (f x.1).dropLast,
              (f x.1).getLast hxne, !((f x.1).getLast hxne),
              PFOn_swapF hkb hky hPF₁,
              le_trans (codeCost_swapF_le hnd hb hyS hby hwy hlb1) hcost₁, hnn, ?_, ?_⟩
            · rw [swapF_other (swapF f a x.1) hab hay, hf₁a]
              exact hxc
            · rw [swapF_fst, hf₁y, hy]
    · push_neg at hsib
      have hPFg := PF_shorten hnd hPF hxS hxmax hxne hsib
      have hlt := totalLen_updF_lt hnd hxS hxne
      obtain ⟨g', t, b₁, b₂, hPF', hcost', hbne, hga, hgb⟩ :=
        ih S (updF f x.1 ((f x.1).dropLast)) a b wa wb (by omega) hnd hlen
          ha hb hab hwa hwb hPFg
      exact ⟨g', t, b₁, b₂, hPF',
        le_trans hcost' (codeCost_mono (updF_len_le f x.1)), hbne, hga, hgb⟩

theorem codeCost_append (A B : List (Char × Nat)) (f : Char → List Bool) :
    codeCost (A ++ B) f = codeCost A f + codeCost B f := by
  simp [codeCost]

theorem bool_cover {b₁ b₂ : Bool} (c : Bool) (h : b₁ ≠ b₂) : c = b₁ ∨ c = b₂ := by
  cases b₁ <;> cases b₂ <;> cases c <;> simp_all

theorem append_singleton_isPre (t : List Bool) (c : Bool) (r : List Bool) :
    t ++ [c] <+: t ++ c :: r := by
  rw [show t ++ c :: r = (t ++ [c]) ++ r by simp]
  exact List.prefix_append _ _

theorem map_split {α β : Type} (f : α → β) :
    ∀ {l : List α} {l₁ l₂ : List β} {b : β},
    l.map f = l₁ ++ b :: l₂ →
    ∃ m₁ x m₂, l = m₁ ++ x :: m₂ ∧ m₁.map f = l₁ ∧ f x = b ∧ m₂.map f = l₂ := by
  intro l
  induction l with
  | nil =>
    intro l₁ l₂ b h
    rw [List.map_nil] at h
    exact absurd h.symm (List.append_ne_nil_of_right_ne_nil _ (by simp))
  | cons a t ih =>
    intro l₁ l₂ b h
    rw [List.map_cons] at h
    cases l₁ with
    | nil =>
      rw [List.nil_append] at h
      injection h with h1 h2
      exact ⟨[], a, t, rfl, rfl, h1, h2⟩
    | cons c l₁' =>
      rw [List.cons_append] at h
      injection h with h1 h2
      obtain ⟨m₁, x, m₂, hl, hm₁, hx, hm₂⟩ := ih h2
      exact ⟨a :: m₁, x, m₂, by rw [hl, List.cons_append], by rw [List.map_cons, hm₁, h1], hx, hm₂⟩

theorem hCostW_le_codeCost :
    ∀ (n : Nat) (S : List (Char × Nat)) (f : Char → List Bool),
    S.length ≤ n →
    (S.map Prod.fst).Nodup →
    (S.map Prod.snd).sum < U64MAX →
    PFOn (S.map Prod.fst) f →
    hCostW (S.map Prod.snd) ≤ codeCost S f := by
  intro n
  induction n with
  | zero =>
    intro S f hlen _ _ _
    have : S = [] := List.length_eq_zero.mp (by omega)
    subst this
    rw [show (List.map Prod.snd ([] : List (Char × Nat))) = [] from rfl,
      hCostW_none (show pickMin [] = none from rfl)]
    exact Nat.zero_le _
  | succ n ih =>
    intro S f hlen hnd hsum hPF
    cases h1 : pickMin (S.map Prod.snd) with
    | none =>
      rw [hCostW_none h1]
      exact Nat.zero_le _
    | some w1 =>
      cases h2 : pickMin ((S.map Prod.snd).erase w1) with
      | none =>
        rw [hCostW_stop h1 h2]
        exact Nat.zero_le _
      | some w2 =>
        obtain ⟨l₁, l₂, hw1l₁, hws, hwserase⟩ := List.exists_erase_eq (pickMin_mem h1)
        obtain ⟨S₁, e, S₂, hS, hmS₁, he2, hmS₂⟩ := map_split Prod.snd hws
        have hmS' : (S₁ ++ S₂).map Prod.snd = (S.map Prod.snd).erase w1 := by
          rw [hwserase, List.map_append, hmS₁, hmS₂]
        obtain ⟨m₁, m₂, hw2m₁, hws', hws'erase⟩ := List.exists_erase_eq (pickMin_mem h2)
        obtain ⟨T₁, eb, T₂, hS', hmT₁, heb2, hmT₂⟩ := map_split Prod.snd (hmS'.trans hws')
        have hmT : (T₁ ++ T₂).map Prod.snd = ((S.map Prod.snd).erase w1).erase w2 := by
          rw [hws'erase, List.map_append, hmT₁, hmT₂]
        -- the two chosen entries
        have hperm1 : S.Perm (e :: (S₁ ++ S₂)) := by
          rw [hS]
          exact List.perm_middle
        have hperm2 : (S₁ ++ S₂).Perm (eb :: (T₁ ++ T₂)) := by
          rw [hS']
          exact List.perm_middle
        have hperm : S.Perm (e :: eb :: (T₁ ++ T₂)) :=
          hperm1.trans (List.Perm.cons _ hperm2)
        have hndP := (hperm.map Prod.fst).nodup_iff.mp hnd
        simp only [List.map_cons, List.nodup_cons, List.mem_cons, List.mem_map] at hndP
        have hab : e.1 ≠ eb.1 := fun hEq => hndP.1 (Or.inl hEq)
        have haT : ∀ d ∈ T₁ ++ T₂, d.1 ≠ e.1 :=
          fun d hd hEq => hndP.1 (Or.inr ⟨d, hd, hEq⟩)
        have hbT : ∀ d ∈ T₁ ++ T₂, d.1 ≠ eb.1 :=
          fun d hd hEq => hndP.2.1 ⟨d, hd, hEq⟩
        have heS : e ∈ S := hperm.mem_iff.mpr (List.mem_cons_self _ _)
        have hebS : eb ∈ S :=
          hperm.mem_iff.mpr (List.mem_cons_of_mem _ (List.mem_cons_self _ _))
        have haw : (e.1, w1) ∈ S := by
          rw [← he2]
          exact heS
        have hbw : (eb.1, w2) ∈ S := by
          rw [← heb2]
          exact hebS
        have hwa : ∀ e' ∈ S, w1 ≤ e'.2 :=
          fun e' he' => pickMin_le h1 _ (List.mem_map_of_mem Prod.snd he')
        have hwb : ∀ e' ∈ S, e'.1 ≠ e.1 → w2 ≤ e'.2 := by
          intro e' he' hne
          apply pickMin_le h2
          rw [← hmS']
          apply List.mem_map_of_mem
          have := hperm1.mem_iff.mp he'
          rcases List.mem_cons.mp this with h' | h'
          · exact absurd (congrArg Prod.fst h') hne
          · exact h'
        have hlen2 : 2 ≤ S.length := by
          have := hperm.length_eq
          simp at this
          omega
        obtain ⟨g, t, b₁, b₂, hPFg, hcostg, hbne, hga, hgb⟩ :=
          sibling_normalize (totalLen S f) S f e.1 eb.1 w1 w2 (le_refl _)
            hnd hlen2 haw hbw hab hwa hwb hPF
        -- the merged table and code
        set S2 : List (Char × Nat) := (T₁ ++ T₂) ++ [(e.1, w1 + w2)] with hS2
        set f' : Char → List Bool := updF g e.1 t with hf'
        have hS2snd : S2.map Prod.snd = ((S.map Prod.snd).erase w1).erase w2 ++ [w1 + w2] := by
          rw [hS2, List.map_append, hmT]
          rfl
        have hS2keys : S2.map Prod.fst = (T₁ ++ T₂).map Prod.fst ++ [e.1] := by
          rw [hS2, List.map_append]
          rfl
        have hndS2 : (S2.map Prod.fst).Nodup := by
          rw [hS2keys]
          rw [List.nodup_append]
          refine ⟨?_, by simp, ?_⟩
          · have := hndP.2.2
            exact this
          · intro d hd
            simp only [List.mem_singleton]
            rw [List.mem_map] at hd
            obtain ⟨d', hd', hdk⟩ := hd
            rw [← hdk]
            exact haT d' hd'
        have hsum2 : (S2.map Prod.snd).sum < U64MAX := by
          have hp1 := (List.perm_cons_erase (pickMin_mem h1)).sum_eq
          have hp2 := (List.perm_cons_erase (pickMin_mem h2)).sum_eq
          simp only [List.sum_cons] at hp1 hp2
          rw [hS2snd, List.sum_append]
          simp only [List.sum_cons, List.sum_nil]
          omega
        have hlen3 : S2.length ≤ n := by
          have h1' := hperm.length_eq
          simp only [List.length_cons, List.length_append] at h1'
          rw [hS2]
          simp only [List.length_append, List.length_cons, List.length_nil]
          omega
        have hPF' : PFOn (S2.map Prod.fst) f' := by
          intro c₁ hc₁ c₂ hc₂ hne12
          rw [hS2keys] at hc₁ hc₂
          have hmem : ∀ d, d ∈ (T₁ ++ T₂).map Prod.fst ++ [e.1] → d ≠ e.1 →
              d ∈ S.map Prod.fst ∧ d ≠ e.1 ∧ d ≠ eb.1 := by
            intro d hd hdne
            rcases List.mem_append.mp hd with h' | h'
            · rw [List.mem_map] at h'
              obtain ⟨d', hd', hdk⟩ := h'
              have hd'S : d' ∈ S := hperm.mem_iff.mpr
                (List.mem_cons_of_mem _ (List.mem_cons_of_mem _ hd'))
              exact ⟨hdk ▸ List.mem_map_of_mem Prod.fst hd'S,
                hdne, hdk ▸ hbT d' hd'⟩
            · exact absurd (List.mem_singleton.mp h') hdne
          by_cases h₁ : c₁ = e.1
          · by_cases h₂ : c₂ = e.1
            · exact absurd (h₁.trans h₂.symm) hne12
            · obtain ⟨hc₂S, hc₂a, hc₂b⟩ := hmem c₂ hc₂ h₂
              rw [h₁, hf', updF_self, updF_other g e.1 t h₂]
              intro hpre
              obtain ⟨r, hr⟩ := hpre
              cases r with
              | nil =>
                rw [List.append_nil] at hr
                have : g c₂ <+: g e.1 := by
                  rw [← hr, hga]
                  exact List.prefix_append _ _
                exact hPFg c₂ hc₂S e.1 (List.mem_map_of_mem Prod.fst heS) hc₂a this
              | cons c r' =>
                rcases bool_cover c hbne with hc | hc
                · subst hc
                  have : g e.1 <+: g c₂ := by
                    rw [hga, ← hr]
                    exact append_singleton_isPre t c r'
                  exact hPFg e.1 (List.mem_map_of_mem Prod.fst heS) c₂ hc₂S
                    (fun hEq => h₂ hEq.symm) this
                · subst hc
                  have : g eb.1 <+: g c₂ := by
                    rw [hgb, ← hr]
                    exact append_singleton_isPre t c r'
                  exact hPFg eb.1 (List.mem_map_of_mem Prod.fst hebS) c₂ hc₂S
                    (fun hEq => hc₂b hEq.symm) this
          · by_cases h₂ : c₂ = e.1
            · obtain ⟨hc₁S, hc₁a, _⟩ := hmem c₁ hc₁ h₁
              rw [h₂, hf', updF_self, updF_other g e.1 t h₁]
              intro hpre
              have : g c₁ <+: g e.1 := by
                rw [hga]
                exact hpre.trans (List.prefix_append _ _)
              exact hPFg c₁ hc₁S e.1 (List.mem_map_of_mem Prod.fst heS) hc₁a this
            · obtain ⟨hc₁S, _, _⟩ := hmem c₁ hc₁ h₁
              obtain ⟨hc₂S, _, _⟩ := hmem c₂ hc₂ h₂
              rw [hf', updF_other g e.1 t h₁, updF_other g e.1 t h₂]
              exact hPFg c₁ hc₁S c₂ hc₂S hne12
        have hcost2 : codeCost S2 f' + (w1 + w2) = codeCost S g := by
          have hc1 : codeCost S2 f' = codeCost (T₁ ++ T₂) g + (w1 + w2) * t.length := by
            rw [hS2, codeCost_append]
            have e1 : codeCost (T₁ ++ T₂) f' = codeCost (T₁ ++ T₂) g :=
              codeCost_congr (fun d hd => by
                rw [hf', updF_other g e.1 t (haT d hd)])
            have e2 : codeCost [(e.1, w1 + w2)] f' = (w1 + w2) * t.length := by
              simp [codeCost, hf', updF_self]
            rw [e1, e2]
          have hc2 : codeCost S g
              = w1 * (t.length + 1) + w2 * (t.length + 1) + codeCost (T₁ ++ T₂) g := by
            rw [codeCost_perm hperm, codeCost_cons, codeCost_cons]
            rw [he2, heb2, hga, hgb]
            simp [List.length_append]
            ring
          rw [hc1, hc2]
          ring
        have hIH := ih S2 f' hlen3 hndS2 hsum2 hPF'
        rw [hS2snd] at hIH
        rw [hCostW_merge h1 h2]
        omega

/-! ### Refinement of the construction loop to the abstract merge process (C2) -/

/-- The `(index, node)` pairs scanned by `find_min` over the first `k` arena
slots, read through `nodeAt`. -/
def nodePairs (nodes : List HuffmanNode) (k : Nat) : List (Nat × HuffmanNode) :=
  (List.range k).map (fun i => (i, nodeAt nodes i))

/-- The parentless (still mergeable) nodes among the first `k` arena slots:
the candidate pool of `find_min`. -/
def poolPairs (nodes : List HuffmanNode) (k : Nat) : List (Nat × HuffmanNode) :=
  (nodePairs nodes k).filter (fun q => q.2.parent.isNone)

/-- The weights of the candidate pool, in index order. -/
def PW (nodes : List HuffmanNode) (k : Nat) : List Nat :=
  (poolPairs nodes k).map (fun q => q.2.weight)

/-- Total weight of the internal (character-free) nodes of a subtree: the cost
already committed by the merges that formed the subtree. -/
def subCost (nodes : List HuffmanNode) : Nat → Option Nat → Nat
  | 0, _ => 0
  | _ + 1, none => 0
  | fuel + 1, some i =>
    (if (nodeAt nodes i).value = none then (nodeAt nodes i).weight else 0)
      + subCost nodes fuel (nodeAt nodes i).left
      + subCost nodes fuel (nodeAt nodes i).right

/-- Committed cost of all pool members. -/
def poolCost (nodes : List HuffmanNode) (k : Nat) : Nat :=
  ((poolPairs nodes k).map (fun q => subCost nodes nodes.length (some q.1))).sum

/-- Agreement of two arenas on the four fields read by the traversal (the
`parent` field is irrelevant for subtrees). -/
def sameCore (a b : List HuffmanNode) (x : Nat) : Prop :=
  (nodeAt a x).value = (nodeAt b x).value ∧
  (nodeAt a x).weight = (nodeAt b x).weight ∧
  (nodeAt a x).left = (nodeAt b x).left ∧
  (nodeAt a x).right = (nodeAt b x).right

theorem subCost_none (a : List HuffmanNode) (fuel : Nat) : subCost a fuel none = 0 := by
  cases fuel <;> rfl

/-- A successful scan of `find_min` singles out the first parentless node of
minimal weight: everything before it in the pool is strictly heavier,
everything after it is at least as heavy. -/
theorem findMinGo_char :
    ∀ (l : List (Nat × HuffmanNode)) (min : Nat) (res : Option Nat) (j : Nat),
    findMinGo l min res = some j →
    (res = some j ∧ ∀ q ∈ l, q.2.parent = none → min ≤ q.2.weight) ∨
    (∃ l₁ p l₂, l = l₁ ++ p :: l₂ ∧ p.1 = j ∧ p.2.parent = none ∧ p.2.weight < min ∧
      (∀ q ∈ l₁, q.2.parent = none → p.2.weight < q.2.weight) ∧
      (∀ q ∈ l₂, q.2.parent = none → p.2.weight ≤ q.2.weight)) := by
  intro l
  induction l with
  | nil => intro min res j h; exact Or.inl ⟨h, by simp⟩
  | cons hd rest ih =>
    intro min res j h
    obtain ⟨i, node⟩ := hd
    rw [findMinGo] at h
    by_cases hc : node.parent = none ∧ node.weight < min
    · rw [if_pos hc] at h
      rcases ih _ _ _ h with ⟨hres, hall⟩ | ⟨l₁, p, l₂, hsplit, hpj, hpp, hpw, hbef, haft⟩
      · injection hres with hres
        subst hres
        exact Or.inr ⟨[], (i, node), rest, by simp, rfl, hc.1, hc.2, by simp,
          fun q hq hqp => hall q hq hqp⟩
      · refine Or.inr ⟨(i, node) :: l₁, p, l₂, by simp [hsplit], hpj, hpp,
          lt_trans hpw hc.2, ?_, haft⟩
        intro q hq hqp
        rcases List.mem_cons.mp hq with h' | h'
        · subst h'
          exact hpw
        · exact hbef q h' hqp
    · rw [if_neg hc] at h
      have hhd : node.parent = none → min ≤ node.weight := by
        intro hp
        by_contra hlt
        exact hc ⟨hp, by omega⟩
      rcases ih _ _ _ h with ⟨hres, hall⟩ | ⟨l₁, p, l₂, hsplit, hpj, hpp, hpw, hbef, haft⟩
      · refine Or.inl ⟨hres, ?_⟩
        intro q hq hqp
        rcases List.mem_cons.mp hq with h' | h'
        · subst h'
          exact hhd hqp
        · exact hall q h' hqp
      · refine Or.inr ⟨(i, node) :: l₁, p, l₂, by simp [hsplit], hpj, hpp, hpw, ?_, haft⟩
        intro q hq hqp
        rcases List.mem_cons.mp hq with h' | h'
        · subst h'
          exact lt_of_lt_of_le hpw (hhd hqp)
        · exact hbef q h' hqp

/-- A scan over weights that are all at least the current sentinel keeps the
current result. -/
theorem scanMinVal_stay :
    ∀ (ws : List Nat) (min : Nat) (res : Option Nat),
    (∀ x ∈ ws, min ≤ x) → scanMinVal ws min res = res := by
  intro ws
  induction ws with
  | nil => intro min res _; rfl
  | cons v rest ih =>
    intro min res hall
    rw [scanMinVal, if_neg (by have := hall v (List.mem_cons_self _ _); omega)]
    exact ih _ _ (fun x hx => hall x (List.mem_cons_of_mem _ hx))

/-- The scan selects the first position achieving the minimum: everything
before it strictly heavier, everything after it at least as heavy. -/
theorem scanMinVal_first :
    ∀ (ws₁ : List Nat) (w : Nat) (ws₂ : List Nat) (min : Nat) (res : Option Nat),
    w < min → (∀ x ∈ ws₁, w < x) → (∀ x ∈ ws₂, w ≤ x) →
    scanMinVal (ws₁ ++ w :: ws₂) min res = some w := by
  intro ws₁
  induction ws₁ with
  | nil =>
    intro w ws₂ min res hw _ haft
    rw [List.nil_append, scanMinVal, if_pos hw]
    exact scanMinVal_stay _ _ _ haft
  | cons v rest ih =>
    intro w ws₂ min res hw hbef haft
    have hv : w < v := hbef v (List.mem_cons_self _ _)
    rw [List.cons_append, scanMinVal]
    by_cases hvm : v < min
    · rw [if_pos hvm]
      exact ih w ws₂ v _ hv (fun x hx => hbef x (List.mem_cons_of_mem _ hx)) haft
    · rw [if_neg hvm]
      exact ih w ws₂ min _ hw (fun x hx => hbef x (List.mem_cons_of_mem _ hx)) haft

/-- A pool of one weight generates no further merge cost. -/
theorem hCostW_single (w : Nat) : hCostW [w] = 0 := by
  by_cases hw : w < U64MAX
  · have h1 : pickMin [w] = some w := by
      simp [pickMin, scanMinVal, hw]
    have h2 : pickMin ([w].erase w) = none := by
      rw [List.erase_cons_head]
      rfl
    exact hCostW_stop h1 h2
  · have h1 : pickMin [w] = none := by
      simp [pickMin, scanMinVal, hw]
    exact hCostW_none h1

theorem nodePairs_fst (nodes : List HuffmanNode) (k : Nat) :
    (nodePairs nodes k).map Prod.fst = List.range k := by
  rw [nodePairs, List.map_map]
  exact List.map_id _

theorem mem_nodePairs {nodes : List HuffmanNode} {k : Nat} {q : Nat × HuffmanNode}
    (h : q ∈ nodePairs nodes k) : q.1 < k ∧ q = (q.1, nodeAt nodes q.1) := by
  rw [nodePairs, List.mem_map] at h
  obtain ⟨i, hi, hq⟩ := h
  rw [List.mem_range] at hi
  subst hq
  exact ⟨hi, rfl⟩

/-- `find_min` is the scan of the `(index, node)` pool pairs. -/
theorem find_min_eq (nodes : List HuffmanNode) (k : Nat) (hk : k ≤ nodes.length) :
    find_min nodes k = findMinGo (nodePairs nodes k) U64MAX none := by
  rw [find_min]
  congr 1
  apply List.ext_getElem?
  intro j
  by_cases hj : j < k
  · have hjl : j < nodes.length := lt_of_lt_of_le hj hk
    rw [List.getElem?_enum, List.getElem?_take, if_pos hj,
      List.getElem?_eq_getElem hjl, nodePairs, List.getElem?_map, List.getElem?_range hj]
    simp [nodeAt, List.getD, List.getElem?_eq_getElem hjl]
  · have h1 : (nodes.take k)[j]? = none := by
      rw [List.getElem?_eq_none]
      rw [List.length_take]
      omega
    have h2 : (List.range k)[j]? = none := List.getElem?_eq_none (by simp; omega)
    rw [List.getElem?_enum, h1, nodePairs, List.getElem?_map, h2]
    rfl

theorem poolPairs_succ (a : List HuffmanNode) (k : Nat) :
    poolPairs a (k + 1) =
      poolPairs a k ++ if (nodeAt a k).parent.isNone then [(k, nodeAt a k)] else [] := by
  rw [poolPairs, poolPairs, nodePairs, nodePairs, List.range_succ, List.map_append,
    List.filter_append]
  congr 1
  cases h : (nodeAt a k).parent.isNone <;> simp [List.filter_cons, h]

/-- Changing one node below `k` rewrites exactly one entry of the scanned
pair list. -/
theorem nodePairs_update (a b : List HuffmanNode) (k m : Nat)
    (hAll : ∀ i, i < k → i ≠ m → nodeAt b i = nodeAt a i) :
    nodePairs b k
      = (nodePairs a k).map (fun q => if q.1 = m then (m, nodeAt b m) else q) := by
  rw [nodePairs, nodePairs, List.map_map]
  apply List.map_congr_left
  intro i hi
  rw [List.mem_range] at hi
  simp only [Function.comp]
  by_cases him : i = m
  · subst him
    rw [if_pos rfl]
  · rw [if_neg him, hAll i hi him]

theorem nodePairs_update_split {a b : List HuffmanNode} {k m : Nat}
    {l₁ l₂ : List (Nat × HuffmanNode)} {p : Nat × HuffmanNode}
    (hsplit : nodePairs a k = l₁ ++ p :: l₂) (hpm : p.1 = m)
    (hAll : ∀ i, i < k → i ≠ m → nodeAt b i = nodeAt a i) :
    nodePairs b k = l₁ ++ (m, nodeAt b m) :: l₂ := by
  have hfst : (List.range k).Nodup := List.nodup_range k
  rw [← nodePairs_fst a k, hsplit] at hfst
  simp only [List.map_append, List.map_cons, hpm] at hfst
  rw [List.nodup_append] at hfst
  have hm1 : ∀ q ∈ l₁, q.1 ≠ m := by
    intro q hq hEq
    exact hfst.2.2 (List.mem_map_of_mem Prod.fst hq) (by rw [hEq]; exact List.mem_cons_self _ _)
  have hm2 : ∀ q ∈ l₂, q.1 ≠ m := by
    have hnotin := (List.nodup_cons.mp hfst.2.1).1
    intro q hq hEq
    exact hnotin (hEq ▸ List.mem_map_of_mem Prod.fst hq)
  have e1 : l₁.map (fun q => if q.1 = m then (m, nodeAt b m) else q) = l₁ := by
    conv_rhs => rw [← List.map_id l₁]
    apply List.map_congr_left
    intro q hq
    rw [if_neg (hm1 q hq)]
    rfl
  have e3 : l₂.map (fun q => if q.1 = m then (m, nodeAt b m) else q) = l₂ := by
    conv_rhs => rw [← List.map_id l₂]
    apply List.map_congr_left
    intro q hq
    rw [if_neg (hm2 q hq)]
    rfl
  rw [nodePairs_update a b k m hAll, hsplit, List.map_append, List.map_cons, e1, e3,
    if_pos hpm]

/-- `BuildInv` at any stage yields the structural facts used by traversals. -/
theorem buildInv_goodArena {cw : List (Char × Nat)} {k : Nat} {nodes : List HuffmanNode}
    (hk : cw.length ≤ k) (hI : BuildInv cw k nodes) : GoodArena nodes := by
  intro i
  by_cases h1 : i < cw.length
  · obtain ⟨e, _, hv, _, hl, hr⟩ := hI.leaf i h1
    refine ⟨fun _ => ⟨hl, hr⟩, fun j hj => ?_, fun j hj => ?_⟩
    · rw [hl] at hj
      exact absurd hj (by simp)
    · rw [hr] at hj
      exact absurd hj (by simp)
  · by_cases h2 : i < k
    · obtain ⟨hv, l, r, hl, hr, hli, hri, _⟩ := hI.internal i (by omega) h2
      refine ⟨fun hs => ?_, fun j hj => ?_, fun j hj => ?_⟩
      · rw [hv] at hs
        simp at hs
      · rw [hl] at hj
        injection hj with hh
        omega
      · rw [hr] at hj
        injection hj with hh
        omega
    · obtain ⟨hv, hl, hr, _, _⟩ := hI.fresh i (by omega)
      refine ⟨fun _ => ⟨hl, hr⟩, fun j hj => ?_, fun j hj => ?_⟩
      · rw [hl] at hj
        exact absurd hj (by simp)
      · rw [hr] at hj
        exact absurd hj (by simp)

/-- `subCost` is independent of the fuel and of any modification outside the
subtree (in particular of `parent` fields anywhere). -/
theorem subCost_eq (a b : List HuffmanNode) (hG : GoodArena a) :
    ∀ j f₁ f₂, j < f₁ → j < f₂ → (∀ x, x ≤ j → sameCore a b x) →
    subCost a f₁ (some j) = subCost b f₂ (some j) := by
  intro j
  induction j using Nat.strong_induction_on with
  | _ j ih =>
    intro f₁ f₂ h₁ h₂ hsame
    obtain ⟨f₁', rfl⟩ : ∃ f, f₁ = f + 1 := ⟨f₁ - 1, by omega⟩
    obtain ⟨f₂', rfl⟩ : ∃ f, f₂ = f + 1 := ⟨f₂ - 1, by omega⟩
    rw [subCost, subCost]
    obtain ⟨hv, hw, hl, hr⟩ := hsame j (le_refl j)
    rw [← hv, ← hw, ← hl, ← hr]
    have hchild : ∀ (oc : Option Nat), (∀ c, oc = some c → c < j) →
        subCost a f₁' oc = subCost b f₂' oc := by
      intro oc hc
      cases oc with
      | none => rw [subCost_none, subCost_none]
      | some c =>
        have hcj := hc c rfl
        exact ih c hcj f₁' f₂' (by omega) (by omega) (fun x hx => hsame x (by omega))
    rw [hchild _ (fun c hc => (hG j).2.1 c hc), hchild _ (fun c hc => (hG j).2.2 c hc)]

/-- The visited entries do not depend on the fuel, as long as it exceeds the
root index (children always have smaller indices). -/
theorem subtreeEntries_fuel (a : List HuffmanNode) (hG : GoodArena a) :
    ∀ j f₁ f₂ (path : List Bool), j < f₁ → j < f₂ →
    subtreeEntries a f₁ (some j) path = subtreeEntries a f₂ (some j) path := by
  intro j
  induction j using Nat.strong_induction_on with
  | _ j ih =>
    intro f₁ f₂ path h₁ h₂
    obtain ⟨f₁', rfl⟩ : ∃ f, f₁ = f + 1 := ⟨f₁ - 1, by omega⟩
    obtain ⟨f₂', rfl⟩ : ∃ f, f₂ = f + 1 := ⟨f₂ - 1, by omega⟩
    rw [subtreeEntries, subtreeEntries]
    have hchild : ∀ (oc : Option Nat) (p : List Bool), (∀ c, oc = some c → c < j) →
        subtreeEntries a f₁' oc p = subtreeEntries a f₂' oc p := by
      intro oc p hc
      cases oc with
      | none => rw [subtreeEntries_none, subtreeEntries_none]
      | some c =>
        have hcj := hc c rfl
        exact ih c hcj f₁' f₂' p (by omega) (by omega)
    rw [hchild _ _ (fun c hc => (hG j).2.1 c hc), hchild _ _ (fun c hc => (hG j).2.2 c hc)]

/-- Entries below a longer base path are the shifted entries below the
shorter one. -/
theorem subtreeEntries_shift (a : List HuffmanNode) :
    ∀ (fuel : Nat) (oi : Option Nat) (p q : List Bool),
    subtreeEntries a fuel oi (p ++ q) =
      (subtreeEntries a fuel oi q).map (fun e => (e.1, p ++ e.2)) := by
  intro fuel
  induction fuel with
  | zero => intro oi p q; cases oi <;> rfl
  | succ fuel ih =>
    intro oi p q
    cases oi with
    | none => rfl
    | some i =>
      rw [subtreeEntries, subtreeEntries]
      rw [show (p ++ q) ++ [false] = p ++ (q ++ [false]) from List.append_assoc p q [false],
        show (p ++ q) ++ [true] = p ++ (q ++ [true]) from List.append_assoc p q [true],
        ih _ p (q ++ [false]), ih _ p (q ++ [true])]
      rw [List.map_append, List.map_append]
      congr 1
      congr 1
      cases hv : (nodeAt a i).value <;> simp

set_option maxHeartbeats 1600000 in
/-- One successful iteration of the construction loop merges exactly the two
weights the abstract process picks: the new pool weights are the old ones with
the two scan minima erased and their sum appended, the pool shrinks by one,
and the committed cost grows by the charged sum. -/
theorem buildStep_acct {cw : List (Char × Nat)} {k : Nat} {nodes nodes' : List HuffmanNode}
    (hk1 : cw.length ≤ k) (hk2 : k < 2 * cw.length - 1)
    (hI : BuildInv cw k nodes)
    (h : HuffmanTree.buildStep nodes k = some nodes') :
    ∃ w1 w2,
      pickMin (PW nodes k) = some w1 ∧
      pickMin ((PW nodes k).erase w1) = some w2 ∧
      PW nodes' (k + 1) = ((PW nodes k).erase w1).erase w2 ++ [w1 + w2] ∧
      (PW nodes' (k + 1)).length + 1 = (PW nodes k).length ∧
      poolCost nodes' (k + 1) = poolCost nodes k + (w1 + w2) := by
  have hG := buildInv_goodArena hk1 hI
  have hklen : k < nodes.length := by rw [hI.len]; exact hk2
  obtain ⟨m1, m2, hm1k, hm2k, hne12, hm1p, hm2p, hf1, hf2, hlen, hNk, hNm1, hNm2, hNx⟩ :=
    buildStep_nodeAt hklen h
  rw [find_min_eq nodes k (le_of_lt hklen)] at hf1
  rcases findMinGo_char _ _ _ _ hf1 with ⟨habs, -⟩ | ⟨l₁, p, l₂, hsp, hp1, hpp, hpw, hbef, haft⟩
  · exact absurd habs (by simp)
  have hpmem : p ∈ nodePairs nodes k := by
    rw [hsp]
    exact List.mem_append.mpr (Or.inr (List.mem_cons_self _ _))
  have hpval : p = (m1, nodeAt nodes m1) := by
    obtain ⟨-, hq⟩ := mem_nodePairs hpmem
    rw [hq, hp1]
  have hw1p : p.2.weight = (nodeAt nodes m1).weight := by rw [hpval]
  have hQ : poolPairs nodes k
      = l₁.filter (fun q => q.2.parent.isNone)
        ++ (m1, nodeAt nodes m1) :: l₂.filter (fun q => q.2.parent.isNone) := by
    rw [poolPairs, hsp, List.filter_append, List.filter_cons, hpval,
      if_pos (by simp [hm1p])]
  have hQ1w : ∀ x ∈ (l₁.filter (fun q => q.2.parent.isNone)).map (fun q => q.2.weight),
      (nodeAt nodes m1).weight < x := by
    intro x hx
    rw [List.mem_map] at hx
    obtain ⟨q, hq, hxw⟩ := hx
    rw [List.mem_filter] at hq
    have hqq := hbef q hq.1 (by simpa using hq.2)
    rw [← hxw, ← hw1p]
    exact hqq
  have hQ2w : ∀ x ∈ (l₂.filter (fun q => q.2.parent.isNone)).map (fun q => q.2.weight),
      (nodeAt nodes m1).weight ≤ x := by
    intro x hx
    rw [List.mem_map] at hx
    obtain ⟨q, hq, hxw⟩ := hx
    rw [List.mem_filter] at hq
    have hqq := haft q hq.1 (by simpa using hq.2)
    rw [← hxw, ← hw1p]
    exact hqq
  have hPWk : PW nodes k
      = (l₁.filter (fun q => q.2.parent.isNone)).map (fun q => q.2.weight)
        ++ (nodeAt nodes m1).weight
          :: (l₂.filter (fun q => q.2.parent.isNone)).map (fun q => q.2.weight) := by
    rw [PW, hQ, List.map_append, List.map_cons]
  have hpick1 : pickMin (PW nodes k) = some (nodeAt nodes m1).weight := by
    rw [hPWk]
    exact scanMinVal_first _ _ _ _ _ (hw1p ▸ hpw) hQ1w hQ2w
  have herase1 : (PW nodes k).erase (nodeAt nodes m1).weight
      = (l₁.filter (fun q => q.2.parent.isNone)).map (fun q => q.2.weight)
        ++ (l₂.filter (fun q => q.2.parent.isNone)).map (fun q => q.2.weight) := by
    rw [hPWk, List.erase_append_right _ (fun hmem => lt_irrefl _ (hQ1w _ hmem)),
      List.erase_cons_head]
  have hm1len : m1 < nodes.length := lt_trans hm1k hklen
  have hupd : ∀ i, i < k → i ≠ m1 → nodeAt (markParent nodes m1 k) i = nodeAt nodes i := by
    intro i _ him
    rw [nodeAt_markParent nodes m1 k i hm1len, if_neg him]
  have hn2m1 : nodeAt (markParent nodes m1 k) m1
      = { nodeAt nodes m1 with parent := some k } := by
    rw [nodeAt_markParent nodes m1 k m1 hm1len, if_pos rfl]
  have hsp2 : nodePairs (markParent nodes m1 k) k
      = l₁ ++ (m1, nodeAt (markParent nodes m1 k) m1) :: l₂ :=
    nodePairs_update_split hsp (by rw [hpval]) hupd
  have hQ2pool : poolPairs (markParent nodes m1 k) k
      = l₁.filter (fun q => q.2.parent.isNone)
        ++ l₂.filter (fun q => q.2.parent.isNone) := by
    rw [poolPairs, hsp2, List.filter_append, List.filter_cons, hn2m1, if_neg (by simp)]
  have hPW2 : PW (markParent nodes m1 k) k
      = (PW nodes k).erase (nodeAt nodes m1).weight := by
    rw [PW, hQ2pool, List.map_append, herase1]
  rw [find_min_eq (markParent nodes m1 k) k
    (by rw [length_markParent]; exact le_of_lt hklen)] at hf2
  rcases findMinGo_char _ _ _ _ hf2 with ⟨habs, -⟩ | ⟨j₁, r, j₂, hsr, hr1, hrp, hrw, hrbef, hraft⟩
  · exact absurd habs (by simp)
  have hrmem : r ∈ nodePairs (markParent nodes m1 k) k := by
    rw [hsr]
    exact List.mem_append.mpr (Or.inr (List.mem_cons_self _ _))
  have hrval : r = (m2, nodeAt (markParent nodes m1 k) m2) := by
    obtain ⟨-, hq⟩ := mem_nodePairs hrmem
    rw [hq, hr1]
  have hn2m2 : nodeAt (markParent nodes m1 k) m2 = nodeAt nodes m2 :=
    hupd m2 hm2k (fun hEq => hne12 hEq.symm)
  have hw2r : r.2.weight = (nodeAt nodes m2).weight := by rw [hrval, hn2m2]
  have hR : poolPairs (markParent nodes m1 k) k
      = j₁.filter (fun q => q.2.parent.isNone)
        ++ (m2, nodeAt (markParent nodes m1 k) m2)
          :: j₂.filter (fun q => q.2.parent.isNone) := by
    rw [poolPairs, hsr, List.filter_append, List.filter_cons, hrval,
      if_pos (by simp [hn2m2, hm2p])]
  have hR1w : ∀ x ∈ (j₁.filter (fun q => q.2.parent.isNone)).map (fun q => q.2.weight),
      (nodeAt nodes m2).weight < x := by
    intro x hx
    rw [List.mem_map] at hx
    obtain ⟨q, hq, hxw⟩ := hx
    rw [List.mem_filter] at hq
    have hqq := hrbef q hq.1 (by simpa using hq.2)
    rw [← hxw, ← hw2r]
    exact hqq
  have hR2w : ∀ x ∈ (j₂.filter (fun q => q.2.parent.isNone)).map (fun q => q.2.weight),
      (nodeAt nodes m2).weight ≤ x := by
    intro x hx
    rw [List.mem_map] at hx
    obtain ⟨q, hq, hxw⟩ := hx
    rw [List.mem_filter] at hq
    have hqq := hraft q hq.1 (by simpa using hq.2)
    rw [← hxw, ← hw2r]
    exact hqq
  have hPW2split : PW (markParent nodes m1 k) k
      = (j₁.filter (fun q => q.2.parent.isNone)).map (fun q => q.2.weight)
        ++ (nodeAt nodes m2).weight
          :: (j₂.filter (fun q => q.2.parent.isNone)).map (fun q => q.2.weight) := by
    rw [PW, hR, List.map_append, List.map_cons, hn2m2]
  have hpick2 : pickMin ((PW nodes k).erase (nodeAt nodes m1).weight)
      = some (nodeAt nodes m2).weight := by
    rw [← hPW2, hPW2split]
    exact scanMinVal_first _ _ _ _ _ (hw2r ▸ hrw) hR1w hR2w
  have herase2 : ((PW nodes k).erase (nodeAt nodes m1).weight).erase (nodeAt nodes m2).weight
      = (j₁.filter (fun q => q.2.parent.isNone)).map (fun q => q.2.weight)
        ++ (j₂.filter (fun q => q.2.parent.isNone)).map (fun q => q.2.weight) := by
    rw [← hPW2, hPW2split,
      List.erase_append_right _ (fun hmem => lt_irrefl _ (hR1w _ hmem)),
      List.erase_cons_head]
  have hupd2 : ∀ i, i < k → i ≠ m2 → nodeAt nodes' i = nodeAt (markParent nodes m1 k) i := by
    intro i hik him2
    by_cases him1 : i = m1
    · subst him1
      rw [hNm1, hn2m1]
    · rw [hNx i (by omega) him1 him2, hupd i hik him1]
  have hsp3 : nodePairs nodes' k = j₁ ++ (m2, nodeAt nodes' m2) :: j₂ :=
    nodePairs_update_split hsr (by rw [hrval]) hupd2
  have hpool3 : poolPairs nodes' k
      = j₁.filter (fun q => q.2.parent.isNone)
        ++ j₂.filter (fun q => q.2.parent.isNone) := by
    rw [poolPairs, hsp3, List.filter_append, List.filter_cons, hNm2, if_neg (by simp)]
  have hkpar : (nodeAt nodes' k).parent = none := by
    rw [hNk]
    exact (hI.fresh k (le_refl k)).2.2.2.1
  have hkw : (nodeAt nodes' k).weight
      = (nodeAt nodes m1).weight + (nodeAt nodes m2).weight := by
    rw [hNk]
  have hpoolsucc : poolPairs nodes' (k + 1)
      = (j₁.filter (fun q => q.2.parent.isNone) ++ j₂.filter (fun q => q.2.parent.isNone))
        ++ [(k, nodeAt nodes' k)] := by
    rw [poolPairs_succ, hpool3, if_pos (by simp [hkpar])]
  have hPWsucc : PW nodes' (k + 1)
      = ((PW nodes k).erase (nodeAt nodes m1).weight).erase (nodeAt nodes m2).weight
        ++ [(nodeAt nodes m1).weight + (nodeAt nodes m2).weight] := by
    rw [PW, hpoolsucc, List.map_append, List.map_append, herase2]
    simp [hkw]
  have hlen1 : (PW nodes' (k + 1)).length + 1 = (PW nodes k).length := by
    have e1 : (nodeAt nodes m1).weight ∈ PW nodes k := pickMin_mem hpick1
    have e2 : (nodeAt nodes m2).weight ∈ (PW nodes k).erase (nodeAt nodes m1).weight :=
      pickMin_mem hpick2
    have hpos2 : 0 < ((PW nodes k).erase (nodeAt nodes m1).weight).length :=
      List.length_pos_of_mem e2
    rw [List.length_erase_of_mem e1] at hpos2
    rw [hPWsucc, List.length_append, List.length_erase_of_mem e2,
      List.length_erase_of_mem e1]
    simp only [List.length_singleton]
    omega
  have hsame : ∀ x, x ≠ k → sameCore nodes nodes' x := by
    intro x hx
    by_cases h1 : x = m1
    · subst h1
      rw [sameCore, hNm1]
      exact ⟨rfl, rfl, rfl, rfl⟩
    · by_cases h2 : x = m2
      · subst h2
        rw [sameCore, hNm2]
        exact ⟨rfl, rfl, rfl, rfl⟩
      · rw [sameCore, hNx x hx h1 h2]
        exact ⟨rfl, rfl, rfl, rfl⟩
  have htrans : ∀ i, i < k →
      subCost nodes' nodes'.length (some i) = subCost nodes nodes.length (some i) := by
    intro i hik
    exact (subCost_eq nodes nodes' hG i nodes.length nodes'.length (by omega)
      (by rw [hlen]; omega) (fun x hx => hsame x (by omega))).symm
  have hsplitK : subCost nodes' nodes'.length (some k)
      = (nodeAt nodes m1).weight + (nodeAt nodes m2).weight
        + (subCost nodes nodes.length (some m1) + subCost nodes nodes.length (some m2)) := by
    have hkv : (nodeAt nodes' k).value = none := by
      rw [hNk]
      exact (hI.fresh k (le_refl k)).1
    have hkl : (nodeAt nodes' k).left = some m1 := by rw [hNk]
    have hkr : (nodeAt nodes' k).right = some m2 := by rw [hNk]
    obtain ⟨M, hM⟩ : ∃ M, nodes'.length = M + 1 := ⟨nodes'.length - 1, by rw [hlen]; omega⟩
    rw [hM, subCost, hkv, if_pos rfl, hkw, hkl, hkr]
    have hT1 : subCost nodes' M (some m1) = subCost nodes nodes.length (some m1) :=
      (subCost_eq nodes nodes' hG m1 nodes.length M (by omega) (by omega)
        (fun x hx => hsame x (by omega))).symm
    have hT2 : subCost nodes' M (some m2) = subCost nodes nodes.length (some m2) :=
      (subCost_eq nodes nodes' hG m2 nodes.length M (by omega) (by omega)
        (fun x hx => hsame x (by omega))).symm
    rw [hT1, hT2]
    omega
  have hQR : l₁.filter (fun q => q.2.parent.isNone) ++ l₂.filter (fun q => q.2.parent.isNone)
      = j₁.filter (fun q => q.2.parent.isNone)
        ++ (m2, nodeAt (markParent nodes m1 k) m2)
          :: j₂.filter (fun q => q.2.parent.isNone) := by
    rw [← hQ2pool, hR]
  have hjlt : ∀ q, q ∈ j₁.filter (fun q => q.2.parent.isNone)
      ++ j₂.filter (fun q => q.2.parent.isNone) → q.1 < k := by
    intro q hq
    have hq' : q ∈ nodePairs (markParent nodes m1 k) k := by
      rcases List.mem_append.mp hq with h' | h'
      · rw [hsr]
        exact List.mem_append.mpr (Or.inl (List.mem_of_mem_filter h'))
      · rw [hsr]
        exact List.mem_append.mpr (Or.inr (List.mem_cons_of_mem _ (List.mem_of_mem_filter h')))
    exact (mem_nodePairs hq').1
  have hmap3 : (j₁.filter (fun q => q.2.parent.isNone)
        ++ j₂.filter (fun q => q.2.parent.isNone)).map
        (fun q => subCost nodes' nodes'.length (some q.1))
      = (j₁.filter (fun q => q.2.parent.isNone)
        ++ j₂.filter (fun q => q.2.parent.isNone)).map
        (fun q => subCost nodes nodes.length (some q.1)) :=
    List.map_congr_left (fun q hq => htrans q.1 (hjlt q hq))
  refine ⟨(nodeAt nodes m1).weight, (nodeAt nodes m2).weight, hpick1, hpick2, hPWsucc,
    hlen1, ?_⟩
  have hQRsum := congrArg (fun L : List (Nat × HuffmanNode) =>
    (L.map (fun q => subCost nodes nodes.length (some q.1))).sum) hQR
  simp only [List.map_append, List.map_cons, List.sum_append, List.sum_cons] at hQRsum
  rw [poolCost, poolCost, hpoolsucc, hQ, List.map_append, List.sum_append, hmap3]
  simp only [List.map_append, List.map_cons, List.map_nil, List.sum_append, List.sum_cons,
    List.sum_nil]
  rw [hsplitK]
  omega

/-- Accounting invariant of the whole construction loop: pool size decreases
by one per iteration, and committed cost plus remaining abstract merge cost is
conserved. -/
theorem buildLoop_acct (cw : List (Char × Nat)) :
    ∀ (cnt start : Nat) (nodes₀ nodesF : List HuffmanNode),
    cw.length ≤ start → start + cnt ≤ 2 * cw.length - 1 →
    BuildInv cw start nodes₀ →
    (List.range' start cnt).foldlM HuffmanTree.buildStep nodes₀ = some nodesF →
    (PW nodesF (start + cnt)).length + cnt = (PW nodes₀ start).length ∧
    poolCost nodesF (start + cnt) + hCostW (PW nodesF (start + cnt)) =
      poolCost nodes₀ start + hCostW (PW nodes₀ start) := by
  intro cnt
  induction cnt with
  | zero =>
    intro start n₀ nF h1 h2 hI h
    simp only [show List.range' start 0 = [] from rfl, List.foldlM_nil,
      Option.pure_def, Option.some.injEq] at h
    subst h
    simp
  | succ cnt ih =>
    intro start n₀ nF h1 h2 hI h
    rw [List.range'_succ] at h
    simp only [List.foldlM_cons, Option.bind_eq_bind, Option.bind_eq_some] at h
    obtain ⟨n₁, hstep, hrest⟩ := h
    have hI1 := buildStep_inv h1 (by omega) hI hstep
    obtain ⟨w1, w2, hp1, hp2, hPWs, hlen1, hPSs⟩ := buildStep_acct h1 (by omega) hI hstep
    obtain ⟨ihlen, iheq⟩ := ih (start + 1) n₁ nF (by omega) (by omega) hI1 hrest
    have hmerge : hCostW (PW n₀ start) = w1 + w2 + hCostW (PW n₁ (start + 1)) := by
      rw [hCostW_merge hp1 hp2, hPWs]
    rw [show start + (cnt + 1) = start + 1 + cnt from by omega]
    constructor
    · omega
    · rw [hmerge]
      omega

/-- Initially every leaf is in the pool. -/
theorem init_poolPairs (cw : List (Char × Nat)) (hn : cw.length ≠ 0) :
    poolPairs (HuffmanTree.initNodes cw (2 * cw.length - 1)) cw.length =
      nodePairs (HuffmanTree.initNodes cw (2 * cw.length - 1)) cw.length := by
  rw [poolPairs]
  apply List.filter_eq_self.mpr
  intro q hq
  obtain ⟨i, nd⟩ := q
  obtain ⟨hik, hqv⟩ := mem_nodePairs hq
  simp only [Prod.mk.injEq] at hqv
  obtain ⟨-, rfl⟩ := hqv
  simp only [nodeAt_initNodes]
  by_cases h : i < 2 * cw.length - 1
  · rw [if_pos h]
    cases hg : cw.get? i <;> simp [hg, HuffmanNode.new]
  · rw [if_neg h]
    simp [HuffmanNode.new]

/-- The initial pool weights are exactly the frequency-table weights. -/
theorem init_PW (cw : List (Char × Nat)) (hn : cw.length ≠ 0) :
    PW (HuffmanTree.initNodes cw (2 * cw.length - 1)) cw.length = cw.map Prod.snd := by
  rw [PW, init_poolPairs cw hn, nodePairs, List.map_map]
  apply List.ext_getElem
  · simp
  · intro j h₁ h₂
    simp only [List.getElem_map, List.getElem_range, Function.comp]
    have hj : j < cw.length := by simpa using h₂
    have hjt : j < 2 * cw.length - 1 := by omega
    rw [nodeAt_initNodes, if_pos hjt,
      show cw.get? j = some cw[j] from by rw [List.get?_eq_getElem?, List.getElem?_eq_getElem hj]]

/-- Leaves carry no committed cost. -/
theorem init_poolCost (cw : List (Char × Nat)) (hn : cw.length ≠ 0) :
    poolCost (HuffmanTree.initNodes cw (2 * cw.length - 1)) cw.length = 0 := by
  rw [poolCost]
  apply List.sum_eq_zero
  intro x hx
  rw [List.mem_map] at hx
  obtain ⟨q, hq, hxv⟩ := hx
  rw [← hxv]
  obtain ⟨hq1, -⟩ := mem_nodePairs (List.mem_of_mem_filter hq)
  obtain ⟨e, he, hv, hw, hl, hr⟩ := (initNodes_buildInv cw hn).leaf q.1 hq1
  have hlen : (HuffmanTree.initNodes cw (2 * cw.length - 1)).length = 2 * cw.length - 1 := by
    simp [HuffmanTree.initNodes]
  obtain ⟨M, hM⟩ : ∃ M, (HuffmanTree.initNodes cw (2 * cw.length - 1)).length = M + 1 :=
    ⟨2 * cw.length - 1 - 1, by rw [hlen]; omega⟩
  rw [hM, subCost, hv, hl, hr, subCost_none]
  simp

/-- `or_insert` keeps existing keys and appends a fresh key at the end. -/
theorem bumpWeight_keys (m : List (Char × Nat)) (c : Char) :
    (bumpWeight m c).map Prod.fst =
      if c ∈ m.map Prod.fst then m.map Prod.fst else m.map Prod.fst ++ [c] := by
  induction m with
  | nil => simp [bumpWeight]
  | cons p rest ih =>
    rw [bumpWeight]
    by_cases hp : p.1 = c
    · rw [if_pos hp]
      simp [hp]
    · rw [if_neg hp]
      simp only [List.map_cons, ih]
      by_cases hc : c ∈ rest.map Prod.fst
      · rw [if_pos hc, if_pos (List.mem_cons_of_mem _ hc)]
      · rw [if_neg hc, if_neg (by
          intro hmem
          rcases List.mem_cons.mp hmem with h' | h'
          · exact hp h'.symm
          · exact hc h')]
        rfl

theorem bumpWeight_keys_nodup {m : List (Char × Nat)} (h : (m.map Prod.fst).Nodup) (c : Char) :
    ((bumpWeight m c).map Prod.fst).Nodup := by
  rw [bumpWeight_keys]
  by_cases hc : c ∈ m.map Prod.fst
  · rw [if_pos hc]
    exact h
  · rw [if_neg hc]
    rw [List.nodup_append]
    refine ⟨h, List.nodup_singleton c, ?_⟩
    intro a ha hmem
    rw [List.mem_singleton] at hmem
    subst hmem
    exact hc ha

/-- The keys of the frequency table are distinct. -/
theorem cw_keys_nodup (source : List Char) :
    ((CharWeightMap.build source).map Prod.fst).Nodup := by
  rw [CharWeightMap.build]
  suffices h : ∀ (src : List Char) (m : List (Char × Nat)), (m.map Prod.fst).Nodup →
      ((src.foldl bumpWeight m).map Prod.fst).Nodup from h source [] (by simp)
  intro src
  induction src with
  | nil => intro m hm; exact hm
  | cons c rest ih =>
    intro m hm
    exact ih _ (bumpWeight_keys_nodup hm c)

theorem bumpWeight_sum (m : List (Char × Nat)) (c : Char) :
    ((bumpWeight m c).map Prod.snd).sum = (m.map Prod.snd).sum + 1 := by
  induction m with
  | nil => simp [bumpWeight]
  | cons p rest ih =>
    rw [bumpWeight]
    by_cases hp : p.1 = c
    · rw [if_pos hp]
      simp only [List.map_cons, List.sum_cons]
      omega
    · rw [if_neg hp]
      simp only [List.map_cons, List.sum_cons, ih]
      omega

/-- The weights of the frequency table sum to the input length. -/
theorem cw_sum (source : List Char) :
    ((CharWeightMap.build source).map Prod.snd).sum = source.length := by
  rw [CharWeightMap.build]
  suffices h : ∀ (src : List Char) (m : List (Char × Nat)),
      ((src.foldl bumpWeight m).map Prod.snd).sum = (m.map Prod.snd).sum + src.length from by
    simpa using h source []
  intro src
  induction src with
  | nil => intro m; simp
  | cons c rest ih =>
    intro m
    rw [List.foldl_cons, ih, bumpWeight_sum, List.length_cons]
    omega

/-- On the finished arena, the weighted code length of the entries below a
node equals its committed subtree cost plus the base-path length times its
weight: each internal merge is charged once per leaf below it. -/
theorem cost_entries {cw : List (Char × Nat)} {nodes : List HuffmanNode}
    (hI : BuildInv cw (2 * cw.length - 1) nodes)
    (hnd : (cw.map Prod.fst).Nodup) :
    ∀ (fuel j : Nat) (path : List Bool), j < fuel → j < 2 * cw.length - 1 →
    ((subtreeEntries nodes fuel (some j) path).map
        (fun e => (assocGet cw e.1).getD 0 * e.2.length)).sum
      = path.length * (nodeAt nodes j).weight + subCost nodes fuel (some j) := by
  intro fuel
  induction fuel with
  | zero => intro j path h _; omega
  | succ fuel ih =>
    intro j path hj hjN
    rw [subtreeEntries, subCost]
    by_cases hleaf : j < cw.length
    · obtain ⟨e, he, hv, hw, hl, hr⟩ := hI.leaf j hleaf
      have hmem : (e.1, e.2) ∈ cw := List.get?_mem he
      have hget : assocGet cw e.1 = some e.2 := assocGet_of_mem_keysNodup hmem hnd
      simp only [hv, hl, hr, subtreeEntries_none, subCost_none, List.append_nil,
        List.map_cons, List.map_nil, List.sum_cons, List.sum_nil, hget, Option.getD_some, hw]
      simp
      ring
    · obtain ⟨hv, l, r, hl, hr, hli, hri, hw⟩ := hI.internal j (by omega) hjN
      simp only [hv, hl, hr, List.nil_append, List.map_append, List.sum_append, reduceIte]
      rw [ih l (path ++ [false]) (by omega) (by omega),
        ih r (path ++ [true]) (by omega) (by omega)]
      simp only [List.length_append, List.length_cons, List.length_nil]
      rw [hw]
      ring

/-- Any key inserted along the fold is present in the final map. -/
theorem assocGet_foldl_isSome [DecidableEq κ] (L m₀ : List (κ × α)) (k : κ)
    (h : k ∈ L.map Prod.fst) :
    (assocGet (L.foldl (fun m p => insertAssoc m p.1 p.2) m₀) k).isSome := by
  rw [assocGet_foldl_insert]
  have hk : k ∈ L.reverse.map Prod.fst := by
    rw [List.map_reverse, List.mem_reverse]
    exact h
  have hmem : ∀ (m : List (κ × α)), k ∈ m.map Prod.fst → (assocGet m k).isSome := by
    intro m
    induction m with
    | nil => intro h'; simp at h'
    | cons p rest ih =>
      intro h'
      rw [List.map_cons] at h'
      rw [assocGet]
      by_cases hp : p.1 = k
      · rw [if_pos hp]
        rfl
      · rw [if_neg hp]
        apply ih
        rcases List.mem_cons.mp h' with h'' | h''
        · exact absurd h''.symm hp
        · exact h''
  have hsome := hmem L.reverse hk
  cases hA : assocGet L.reverse k with
  | none => rw [hA] at hsome; simp at hsome
  | some v => rfl

/-- Every entry below any node reappears (with a longer path) below the root,
by climbing the parent chain. -/
theorem entries_climb (nodes : List HuffmanNode) (hG : GoodArena nodes) (N : Nat)
    (hNpos : 0 < N)
    (hup : ∀ j, j < N → j ≠ N - 1 → ∃ p, p < N ∧ j < p ∧
      ((nodeAt nodes p).left = some j ∨ (nodeAt nodes p).right = some j)) :
    ∀ d j, j < N → N - 1 - j ≤ d →
    ∀ e ∈ subtreeEntries nodes N (some j) [],
    ∃ q, (e.1, q) ∈ subtreeEntries nodes N (some (N - 1)) [] := by
  intro d
  induction d with
  | zero =>
    intro j hj hd e he
    have hjr : j = N - 1 := by omega
    subst hjr
    exact ⟨e.2, by simpa using he⟩
  | succ d ih =>
    intro j hj hd e he
    by_cases hroot : j = N - 1
    · subst hroot
      exact ⟨e.2, by simpa using he⟩
    · obtain ⟨p, hpN, hjp, hlink⟩ := hup j hj hroot
      obtain ⟨M, hM⟩ : ∃ M, N = M + 1 := ⟨N - 1, by omega⟩
      have hjM : j < M := by omega
      have heM : e ∈ subtreeEntries nodes M (some j) [] := by
        rw [subtreeEntries_fuel nodes hG j M N [] hjM hj]
        exact he
      have hshift : ∀ b : Bool, subtreeEntries nodes M (some j) [b]
          = (subtreeEntries nodes M (some j) []).map (fun e => (e.1, [b] ++ e.2)) := by
        intro b
        rw [show ([b] : List Bool) = [b] ++ [] from by simp, subtreeEntries_shift]
        simp
      have hmemp : (e.1, [false] ++ e.2) ∈ subtreeEntries nodes N (some p) []
          ∨ (e.1, [true] ++ e.2) ∈ subtreeEntries nodes N (some p) [] := by
        rw [hM, subtreeEntries]
        rcases hlink with hL | hR
        · left
          rw [hL]
          apply List.mem_append.mpr
          apply Or.inl
          apply List.mem_append.mpr
          apply Or.inr
          rw [show ([] : List Bool) ++ [false] = [false] from rfl, hshift false]
          exact List.mem_map_of_mem _ heM
        · right
          rw [hR]
          apply List.mem_append.mpr
          apply Or.inr
          rw [show ([] : List Bool) ++ [true] = [true] from rfl, hshift true]
          exact List.mem_map_of_mem _ heM
      rcases hmemp with hm | hm
      · exact ih p hpN (by omega) (e.1, [false] ++ e.2) hm
      · exact ih p hpN (by omega) (e.1, [true] ++ e.2) hm

set_option maxHeartbeats 1600000 in
/-- C2: for every input text the builder accepts (any non-empty text of
machine-representable length), the symbol → bit-sequence table produced by
`HuffmanTree::build` followed by `HuffmanBinaryMap::build` assigns a code to
every symbol of the frequency table, and its total encoded bit length
`Σ freq(s) × len(code(s))` is minimal among all prefix codes for that
frequency distribution. -/
theorem c2_optimal (source : List Char) (nodes : List HuffmanNode)
    (hsrc : source.length < U64MAX)
    (hb : HuffmanTree.build (CharWeightMap.build source) = some nodes)
    (f : Char → List Bool)
    (hPF : PFOn ((CharWeightMap.build source).map Prod.fst) f) :
    (∀ e ∈ CharWeightMap.build source,
      (assocGet (HuffmanBinaryMap.build nodes) e.1).isSome) ∧
    codeCost (CharWeightMap.build source)
        (fun c => (assocGet (HuffmanBinaryMap.build nodes) c).getD [])
      ≤ codeCost (CharWeightMap.build source) f := by
  obtain ⟨hn, hIF⟩ := build_inv hb
  have hn1 : 1 ≤ (CharWeightMap.build source).length := Nat.pos_of_ne_zero hn
  have hlenN : nodes.length = 2 * (CharWeightMap.build source).length - 1 := hIF.len
  have hG := buildInv_goodArena (by omega) hIF
  have hnd := cw_keys_nodup source
  have hsum : ((CharWeightMap.build source).map Prod.snd).sum < U64MAX := by
    rw [cw_sum]
    exact hsrc
  have hloop : (List.range' (CharWeightMap.build source).length
      (2 * (CharWeightMap.build source).length - 1
        - (CharWeightMap.build source).length)).foldlM
      HuffmanTree.buildStep
      (HuffmanTree.initNodes (CharWeightMap.build source)
        (2 * (CharWeightMap.build source).length - 1)) = some nodes := by
    rw [HuffmanTree.build] at hb
    simp only [hn, reduceIte] at hb
    exact hb
  obtain ⟨hlenEq, hacct⟩ := buildLoop_acct (CharWeightMap.build source)
    (2 * (CharWeightMap.build source).length - 1 - (CharWeightMap.build source).length)
    (CharWeightMap.build source).length _ nodes (le_refl _) (by omega)
    (initNodes_buildInv _ hn) hloop
  rw [show (CharWeightMap.build source).length
      + (2 * (CharWeightMap.build source).length - 1 - (CharWeightMap.build source).length)
      = 2 * (CharWeightMap.build source).length - 1 from by omega] at hlenEq hacct
  rw [init_PW _ hn] at hlenEq hacct
  rw [init_poolCost _ hn] at hacct
  have hPWlen1 : (PW nodes (2 * (CharWeightMap.build source).length - 1)).length = 1 := by
    rw [List.length_map] at hlenEq
    omega
  have hpoolLen :
      (poolPairs nodes (2 * (CharWeightMap.build source).length - 1)).length = 1 := by
    rw [PW, List.length_map] at hPWlen1
    exact hPWlen1
  obtain ⟨q, hq⟩ := List.length_eq_one.mp hpoolLen
  have hrootpar : (nodeAt nodes (2 * (CharWeightMap.build source).length - 1 - 1)).parent
      = none := by
    cases hp : (nodeAt nodes (2 * (CharWeightMap.build source).length - 1 - 1)).parent with
    | none => rfl
    | some p =>
      obtain ⟨hpn, hpN, hlink⟩ := hIF.par _ p hp
      obtain ⟨-, l, r, hl, hr, hli, hri, -⟩ := hIF.internal p hpn hpN
      rcases hlink with h' | h'
      · rw [hl] at h'
        injection h' with h''
        omega
      · rw [hr] at h'
        injection h' with h''
        omega
  have hrootmem : ((2 * (CharWeightMap.build source).length - 1 - 1 : Nat),
      nodeAt nodes (2 * (CharWeightMap.build source).length - 1 - 1))
      ∈ poolPairs nodes (2 * (CharWeightMap.build source).length - 1) := by
    rw [poolPairs, List.mem_filter]
    refine ⟨?_, by simp [hrootpar]⟩
    rw [nodePairs, List.mem_map]
    exact ⟨2 * (CharWeightMap.build source).length - 1 - 1,
      by rw [List.mem_range]; omega, rfl⟩
  rw [hq] at hrootmem
  have hqroot : q = (2 * (CharWeightMap.build source).length - 1 - 1,
      nodeAt nodes (2 * (CharWeightMap.build source).length - 1 - 1)) :=
    (List.mem_singleton.mp hrootmem).symm
  have hPWval : PW nodes (2 * (CharWeightMap.build source).length - 1)
      = [(nodeAt nodes (2 * (CharWeightMap.build source).length - 1 - 1)).weight] := by
    rw [PW, hq, hqroot]
    rfl
  have hPSval : poolCost nodes (2 * (CharWeightMap.build source).length - 1)
      = subCost nodes nodes.length
        (some (2 * (CharWeightMap.build source).length - 1 - 1)) := by
    rw [poolCost, hq, hqroot]
    simp
  have hkey : hCostW ((CharWeightMap.build source).map Prod.snd)
      = subCost nodes nodes.length
        (some (2 * (CharWeightMap.build source).length - 1 - 1)) := by
    rw [hPWval, hPSval, hCostW_single] at hacct
    omega
  have hED := cost_entries hIF hnd nodes.length
    (2 * (CharWeightMap.build source).length - 1 - 1) [] (by omega) (by omega)
  simp only [List.length_nil, Nat.zero_mul, Nat.zero_add] at hED
  have hbm : HuffmanBinaryMap.build nodes
      = (subtreeEntries nodes nodes.length (some (nodes.length - 1)) []).foldl
        (fun m e => insertAssoc m e.1 e.2) [] := by
    rw [HuffmanBinaryMap.build, treeDfs_eq_foldl]
  rw [hlenN] at hbm hED hkey
  have hup : ∀ j, j < 2 * (CharWeightMap.build source).length - 1 →
      j ≠ 2 * (CharWeightMap.build source).length - 1 - 1 →
      ∃ p, p < 2 * (CharWeightMap.build source).length - 1 ∧ j < p ∧
        ((nodeAt nodes p).left = some j ∨ (nodeAt nodes p).right = some j) := by
    intro j hjN hjroot
    cases hp : (nodeAt nodes j).parent with
    | some p =>
      obtain ⟨hpn, hpN, hlink⟩ := hIF.par j p hp
      obtain ⟨-, l, r, hl', hr', hli, hri, -⟩ := hIF.internal p hpn hpN
      refine ⟨p, hpN, ?_, hlink⟩
      rcases hlink with h' | h'
      · rw [hl'] at h'
        injection h' with h''
        omega
      · rw [hr'] at h'
        injection h' with h''
        omega
    | none =>
      exfalso
      have hjmem : (j, nodeAt nodes j)
          ∈ poolPairs nodes (2 * (CharWeightMap.build source).length - 1) := by
        rw [poolPairs, List.mem_filter]
        refine ⟨?_, by simp [hp]⟩
        rw [nodePairs, List.mem_map]
        exact ⟨j, by rw [List.mem_range]; omega, rfl⟩
      rw [hq] at hjmem
      have hjq := List.mem_singleton.mp hjmem
      rw [hqroot] at hjq
      have hfst := congrArg Prod.fst hjq
      simp only at hfst
      exact hjroot hfst
  have hclimb := entries_climb nodes hG (2 * (CharWeightMap.build source).length - 1)
    (by omega) hup
  have hcomplete : ∀ e ∈ CharWeightMap.build source,
      (assocGet (HuffmanBinaryMap.build nodes) e.1).isSome := by
    intro e he
    obtain ⟨i, hi⟩ := List.mem_iff_get?.mp he
    obtain ⟨hilen, -⟩ := List.get?_eq_some.mp hi
    obtain ⟨e', he', hv, hw, hl, hr⟩ := hIF.leaf i hilen
    rw [hi] at he'
    injection he' with he''
    subst he''
    have hmem0 : ((e.1, ([] : List Bool)))
        ∈ subtreeEntries nodes (2 * (CharWeightMap.build source).length - 1) (some i) [] := by
      obtain ⟨M, hM⟩ : ∃ M, 2 * (CharWeightMap.build source).length - 1 = M + 1 :=
        ⟨2 * (CharWeightMap.build source).length - 1 - 1, by omega⟩
      rw [hM, subtreeEntries, hv, hl, hr]
      simp
    obtain ⟨path', hpath'⟩ := hclimb (2 * (CharWeightMap.build source).length - 1) i
      (by omega) (by omega) (e.1, ([] : List Bool)) hmem0
    rw [hbm]
    apply assocGet_foldl_isSome
    exact List.mem_map_of_mem Prod.fst hpath'
  have hchain : codeCost (CharWeightMap.build source)
      (fun c => (assocGet (HuffmanBinaryMap.build nodes) c).getD [])
      ≤ ((subtreeEntries nodes (2 * (CharWeightMap.build source).length - 1)
          (some (2 * (CharWeightMap.build source).length - 1 - 1)) []).map
        (fun e => (assocGet (CharWeightMap.build source) e.1).getD 0 * e.2.length)).sum := by
    have hMsub : ∀ x ∈ (CharWeightMap.build source).map
        (fun e => (e.1, (assocGet (HuffmanBinaryMap.build nodes) e.1).getD [])),
        x ∈ subtreeEntries nodes (2 * (CharWeightMap.build source).length - 1)
          (some (2 * (CharWeightMap.build source).length - 1 - 1)) [] := by
      intro x hx
      rw [List.mem_map] at hx
      obtain ⟨e, he, hxe⟩ := hx
      obtain ⟨v, hv⟩ := Option.isSome_iff_exists.mp (hcomplete e he)
      have hmemE : (e.1, v) ∈ subtreeEntries nodes
          (2 * (CharWeightMap.build source).length - 1)
          (some (2 * (CharWeightMap.build source).length - 1 - 1)) [] := by
        have hmem' := assocGet_mem hv
        rw [hbm] at hmem'
        rcases mem_foldl_insert _ _ _ hmem' with h' | h'
        · simp at h'
        · exact h'
      rw [← hxe, hv]
      exact hmemE
    have hMnd : ((CharWeightMap.build source).map
        (fun e => (e.1, (assocGet (HuffmanBinaryMap.build nodes) e.1).getD []))).Nodup := by
      apply List.Nodup.of_map Prod.fst
      have hcomp : (((CharWeightMap.build source).map
          (fun e => (e.1, (assocGet (HuffmanBinaryMap.build nodes) e.1).getD []))).map
            Prod.fst)
          = (CharWeightMap.build source).map Prod.fst := by
        rw [List.map_map]
        apply List.map_congr_left
        intro a ha
        rfl
      rw [hcomp]
      exact hnd
    obtain ⟨M', hM'p, hM'sub⟩ := List.Nodup.subperm hMnd hMsub
    have hstep1 : codeCost (CharWeightMap.build source)
        (fun c => (assocGet (HuffmanBinaryMap.build nodes) c).getD [])
        = (((CharWeightMap.build source).map
            (fun e => (e.1, (assocGet (HuffmanBinaryMap.build nodes) e.1).getD []))).map
          (fun e => (assocGet (CharWeightMap.build source) e.1).getD 0 * e.2.length)).sum := by
      rw [codeCost, List.map_map]
      congr 1
      apply List.map_congr_left
      intro e he
      have hget : assocGet (CharWeightMap.build source) e.1 = some e.2 :=
        assocGet_of_mem_keysNodup he hnd
      simp [Function.comp, hget]
    rw [hstep1, ← (hM'p.map
      (fun e => (assocGet (CharWeightMap.build source) e.1).getD 0 * e.2.length)).sum_eq]
    exact List.Sublist.sum_le_sum (hM'sub.map _) (fun b _ => Nat.zero_le b)
  refine ⟨hcomplete, ?_⟩
  have hEq2 : ((subtreeEntries nodes (2 * (CharWeightMap.build source).length - 1)
        (some (2 * (CharWeightMap.build source).length - 1 - 1)) []).map
      (fun e => (assocGet (CharWeightMap.build source) e.1).getD 0 * e.2.length)).sum
      = hCostW ((CharWeightMap.build source).map Prod.snd) := by
    rw [hED, ← hkey]
  exact le_trans (le_trans hchain (le_of_eq hEq2))
    (hCostW_le_codeCost (CharWeightMap.build source).length (CharWeightMap.build source) f
      (le_refl _) hnd hsum hPF)

/-- Witness for C2 at the concrete input `"aab"`, against the competitor
prefix code `a ↦ 0`, otherwise `1`. -/
theorem c2_optimal_witness :
    "aab".data.length < U64MAX ∧
    ((∀ e ∈ CharWeightMap.build "aab".data,
        (assocGet (HuffmanBinaryMap.build
          [{ value := some 'a', weight := 2, parent := some 2, left := none, right := none },
           { value := some 'b', weight := 1, parent := some 2, left := none, right := none },
           { value := none, weight := 3, parent := none, left := some 1, right := some 0 }])
          e.1).isSome) ∧
      codeCost (CharWeightMap.build "aab".data)
          (fun c => (assocGet (HuffmanBinaryMap.build
            [{ value := some 'a', weight := 2, parent := some 2, left := none, right := none },
             { value := some 'b', weight := 1, parent := some 2, left := none, right := none },
             { value := none, weight := 3, parent := none, left := some 1, right := some 0 }])
            c).getD [])
        ≤ codeCost (CharWeightMap.build "aab".data)
            (fun c => if c = 'a' then [false] else [true])) :=
  ⟨by decide, c2_optimal "aab".data
    [{ value := some 'a', weight := 2, parent := some 2, left := none, right := none },
     { value := some 'b', weight := 1, parent := some 2, left := none, right := none },
     { value := none, weight := 3, parent := none, left := some 1, right := some 0 }]
    (by decide) (by decide) (fun c => if c = 'a' then [false] else [true])
    (by unfold PFOn; decide)⟩
